import Mathlib

/-!
Verification of the persistent AVL suffix-index core
(src/suffix-avl-persistent.cc) and of the crit-bit tree variant
(src/critbit-tree.h).

The embedding is shallow: the immutable tree structure of `struct Node`
becomes an inductive type whose `height` field is the stored `const int
height`; string-view keys, compared lexicographically in the source, are
modelled by an arbitrary linear order.  The reference-counting layer
(`NodePtr::IncRef` / `NodePtr::DecRef`) is modelled separately over an
explicit heap, where refcounts are observable.
-/

set_option maxHeartbeats 1000000
set_option linter.unusedSectionVars false

namespace AVLDemo

/-- A (possibly null) pointer to `struct Node` of src/suffix-avl-persistent.cc.
`nil` is the null pointer; `node left value right height` carries the
`left`/`right` children, the key `value` and the stored `const int height`
field.  The mutable `refcount` bookkeeping field does not influence any tree
operation and is modelled separately (namespace `RefCount`, and the annotated
trees `RTree` used by the validator). -/
inductive Tree (α : Type) : Type where
  | nil : Tree α
  | node (left : Tree α) (value : α) (right : Tree α) (height : Int) : Tree α
deriving DecidableEq

variable {α : Type} [LinearOrder α]

/-- `Node::HeightOf`: the stored height, 0 for a null pointer. -/
def HeightOf : Tree α → Int
  | .nil => 0
  | .node _ _ _ h => h

/-- `Node::BalanceOf`: `HeightOf(right) - HeightOf(left)`. -/
def BalanceOf (left right : Tree α) : Int :=
  HeightOf right - HeightOf left

/-- The `Node(left, value, right)` constructor: stores
`height = max(HeightOf(left), HeightOf(right)) + 1`. -/
def mkNode (left : Tree α) (value : α) (right : Tree α) : Tree α :=
  .node left value right (max (HeightOf left) (HeightOf right) + 1)

/-- `Node::MakeAndRebalanceSlowPath`, reached exactly when `balance & 3 == 2`.
The branches in which the source dereferences a child it has just asserted
non-null (`assert(left)`, `assert(left_right)`, ...) are unreachable for any
input satisfying the AVL invariants; they are modelled as plain node
construction so that the function stays total. -/
def MakeAndRebalanceSlowPath (left : Tree α) (value : α) (right : Tree α)
    (balance : Int) : Tree α :=
  if balance = -2 then
    match left with
    | .nil => mkNode .nil value right
    | .node ll lv lr lh =>
      if BalanceOf ll lr = 1 then
        match lr with
        | .nil => mkNode (.node ll lv .nil lh) value right
        | .node lrl lrv lrr _ =>
          -- mk3(left->RawLeft(), left->value, left_right->RawLeft(),
          --     left_right->value, left_right->RawRight(), value, right)
          mkNode (mkNode ll lv lrl) lrv (mkNode lrr value right)
      else
        -- mk2(left->RawLeft(), left->value, left->RawRight(), value, right,
        --     root_at_k1 = true)
        mkNode ll lv (mkNode lr value right)
  else
    match right with
    | .nil => mkNode left value .nil
    | .node rl rv rr rh =>
      if BalanceOf rl rr = -1 then
        match rl with
        | .nil => mkNode left value (.node .nil rv rr rh)
        | .node rll rlv rlr _ =>
          -- mk3(left, value, right_left->RawLeft(), right_left->value,
          --     right_left->RawRight(), right->value, right->RawRight())
          mkNode (mkNode left value rll) rlv (mkNode rlr rv rr)
      else
        -- mk2(left, value, right->RawLeft(), right->value, right->RawRight(),
        --     root_at_k1 = false)
        mkNode (mkNode left value rl) rv rr

/-- `Node::MakeAndRebalance`.  The fast-path test `(balance & 3) != 2` over a
two's-complement `int` is `Int.land balance 3 ≠ 2` (Mathlib's `Int.land` is
two's-complement bitwise and). -/
def MakeAndRebalance (left : Tree α) (value : α) (right : Tree α) : Tree α :=
  let balance := BalanceOf left right
  if Int.land balance 3 ≠ 2 then
    mkNode left value right
  else
    MakeAndRebalanceSlowPath left value right balance

/-- The recursive helper `R::Rec` of `AVLTree::Insert`.
`node->GreaterThan(value)` is `value < node->value`; the base case allocates
`new Node(value)`, a leaf of height 1 (= `mkNode .nil value .nil`). -/
def InsertRec : Tree α → α → Tree α
  | .nil, value => mkNode .nil value .nil
  | .node l v r _h, value =>
    if value < v then
      MakeAndRebalance (InsertRec l value) v r
    else
      MakeAndRebalance l v (InsertRec r value)

/-- `AVLTree::Insert`: an empty optional root (modelled by `nil`) receives a
fresh leaf; otherwise the root is replaced by `R::Rec(root, value)`. -/
def Insert (t : Tree α) (value : α) : Tree α :=
  match t with
  | .nil => mkNode .nil value .nil
  | .node l v r h => InsertRec (.node l v r h) value

/-- The `while (node)` loop of `AVLTree::LowerBound`, carrying the current
`best` candidate. -/
def LowerBoundLoop : Tree α → α → Option α → Option α
  | .nil, _, best => best
  | .node l v r _, str, best =>
    if v < str then LowerBoundLoop r str best
    else LowerBoundLoop l str (some v)

/-- `AVLTree::LowerBound`: returns (the key of) the smallest node `≥ str`, or
none.  The source initializes `best = node->value >= str ? node : nullptr`
from the root before entering the loop. -/
def LowerBound (t : Tree α) (str : α) : Option α :=
  match t with
  | .nil => none
  | .node l v r h =>
    LowerBoundLoop (.node l v r h) str (if str ≤ v then some v else none)

/-- In-order key sequence of a tree. -/
def toList : Tree α → List α
  | .nil => []
  | .node l v r _ => toList l ++ v :: toList r

/-- Number of stored keys. -/
def size (t : Tree α) : Nat := (toList t).length

/-- Height recomputed bottom-up from the structure (what `DoValidate`
independently derives), ignoring the stored field. -/
def RealHeight : Tree α → Nat
  | .nil => 0
  | .node l _ r _ => max (RealHeight l) (RealHeight r) + 1

/-- Invariant (3): every node's stored height field equals
`max(HeightOf(left), HeightOf(right)) + 1`. -/
def Hvalid : Tree α → Prop
  | .nil => True
  | .node l _ r h => Hvalid l ∧ Hvalid r ∧ h = max (HeightOf l) (HeightOf r) + 1

/-- Invariant (2): every node satisfies `|HeightOf(left) - HeightOf(right)| ≤ 1`
(in terms of the stored heights). -/
def BalancedT : Tree α → Prop
  | .nil => True
  | .node l _ r _ =>
    BalancedT l ∧ BalancedT r ∧ -1 ≤ BalanceOf l r ∧ BalanceOf l r ≤ 1

/-- The tree obtained by the driver's insertion loop: successive
`AVLTree::Insert` calls starting from the empty tree. -/
def buildTree (l : List α) : Tree α := l.foldl Insert .nil

/-- Sorted-position list insertion with ties going right; this is the effect
of one `Insert` on the in-order key sequence. -/
def insOrd (k : α) : List α → List α
  | [] => [k]
  | x :: xs => if k < x then k :: x :: xs else x :: insOrd k xs

/-- Node as seen by `AVLTree::DoValidate`: like `Tree` but with the mutable
`refcount` field observable, so that validation of arbitrary (even
invariant-violating) trees can be expressed. -/
inductive RTree (α : Type) : Type where
  | rnil : RTree α
  | rnode (refcount : Int) (height : Int) (left : RTree α) (value : α)
      (right : RTree α) : RTree α
deriving DecidableEq

/-- Stored height of an annotated node (`Node::HeightOf`). -/
def RHeight : RTree α → Int
  | .rnil => 0
  | .rnode _ h _ _ _ => h

/-- In-order key sequence of an annotated tree. -/
def RInorder : RTree α → List α
  | .rnil => []
  | .rnode _ _ l v r => RInorder l ++ v :: RInorder r

/-- `Checker::Rec` of `AVLTree::DoValidate`.  The state `prev` is
`prev_seen`; `none` models a call to `abort()`.  On success the pair holds
the subtree's (checked) stored height — the value `Rec` returns — and the
updated `prev_seen`.  The checks appear in source order: refcount, left
subtree, in-order comparison (note: it aborts only on a strict decrease,
`node->value < *prev_seen`), right subtree, recomputed height, balance. -/
def ValidateRec : RTree α → Option α → Option (Int × Option α)
  | .rnil, prev => some (0, prev)
  | .rnode rc ht l v r, prev =>
    if rc < 1 then none
    else
      match ValidateRec l prev with
      | none => none
      | some (lh, p1) =>
        if (match p1 with | some p => decide (v < p) | none => false) then none
        else
          match ValidateRec r (some v) with
          | none => none
          | some (rh, p2) =>
            if max lh rh + 1 = ht then
              if -1 ≤ RHeight r - RHeight l ∧ RHeight r - RHeight l ≤ 1 then
                some (ht, p2)
              else none
            else none

/-- `AVLTree::Validate` / `DoValidate` as a boolean: true iff no `abort()`
(the stats printing has no observable effect on the tree). -/
def ValidateB (t : RTree α) : Bool :=
  (ValidateRec t none).isSome

/-- Every visited refcount is `≥ 1` (check (c) of the validator). -/
def RcAllB : RTree α → Bool
  | .rnil => true
  | .rnode rc _ l _ r => decide (1 ≤ rc) && RcAllB l && RcAllB r

/-- Every stored height equals the recomputed `max(children) + 1`. -/
def HOkB : RTree α → Bool
  | .rnil => true
  | .rnode _ ht l _ r =>
    decide (ht = max (RHeight l) (RHeight r) + 1) && HOkB l && HOkB r

/-- Every node's (stored-height) balance lies in `{-1,0,1}`. -/
def BalOkB : RTree α → Bool
  | .rnil => true
  | .rnode _ _ l _ r =>
    decide (-1 ≤ RHeight r - RHeight l ∧ RHeight r - RHeight l ≤ 1)
      && BalOkB l && BalOkB r

/-- `weakFrom prev l`: the sequence `prev?, l...` is weakly increasing; this
is exactly the (non-strict) order check the validator performs. -/
def weakFrom : Option α → List α → Bool
  | _, [] => true
  | none, x :: xs => weakFrom (some x) xs
  | some p, x :: xs => decide (p ≤ x) && weakFrom (some x) xs

/-- Last element of `l`, or `prev` when `l` is empty: the value of
`prev_seen` after traversing `l`. -/
def lastOpt : Option α → List α → Option α
  | prev, [] => prev
  | _, x :: xs => lastOpt (some x) xs

/-- Annotate a pure tree with refcount 1 on every node (the refcount every
node reachable from a single live root handle has). -/
def decorate : Tree α → RTree α
  | .nil => .rnil
  | .node l v r h => .rnode 1 h (decorate l) v (decorate r)

end AVLDemo

namespace RefCount

/-- Explicit-heap model of `struct Node`'s bookkeeping: the payload of one
allocated node.  `left`/`right` are the child `NodePtr`s (possibly null),
`refcount` the mutable counter, `value` the key. -/
structure HNode (α : Type) where
  refcount : Int
  left : Option Nat
  right : Option Nat
  value : α
deriving DecidableEq

/-- A heap: an allocation table from addresses to nodes.  Addresses present
in the list are allocated. -/
abbrev Heap (α : Type) : Type := List (Nat × HNode α)

/-- Look an address up in the heap. -/
def hfind (h : Heap α) (a : Nat) : Option (HNode α) :=
  match h with
  | [] => none
  | (b, nd) :: rest => if b = a then some nd else hfind rest a

/-- Overwrite the refcount stored at address `a`. -/
def setRc (h : Heap α) (a : Nat) (rc : Int) : Heap α :=
  match h with
  | [] => []
  | (b, nd) :: rest =>
    if b = a then (b, { nd with refcount := rc }) :: setRc rest a rc
    else (b, nd) :: setRc rest a rc

/-- Deallocate address `a`. -/
def removeA (h : Heap α) (a : Nat) : Heap α :=
  match h with
  | [] => []
  | (b, nd) :: rest =>
    if b = a then removeA rest a else (b, nd) :: removeA rest a

/-- `NodePtr::IncRef`: `if (p) p->refcount++`.  (A dangling pointer is
undefined behaviour in the source; it is modelled as a no-op.) -/
def incRef (h : Heap α) (p : Option Nat) : Heap α :=
  match p with
  | none => h
  | some a =>
    match hfind h a with
    | none => h
    | some nd => setRc h a (nd.refcount + 1)

/-- `NodePtr::DecRef`: `if (!p) return; if (--p->refcount == 0) delete p;`.
`delete` runs the member destructors, which `DecRef` the `right` then the
`left` child handle (reverse declaration order), and then frees the node.
The decrement itself is unconditional: there is no underflow check.  `fuel`
only bounds the recursion of the shallow embedding; any `fuel` larger than
the number of reachable nodes computes the source's behaviour. -/
def decRef (fuel : Nat) (h : Heap α) (p : Option Nat) : Heap α :=
  match fuel, p with
  | _, none => h
  | 0, some _ => h
  | f + 1, some a =>
    match hfind h a with
    | none => h
    | some nd =>
      let rc := nd.refcount - 1
      if rc = 0 then
        removeA (decRef f (decRef f (setRc h a rc) nd.right) nd.left) a
      else
        setRc h a rc

/-- How many references a node holds to address `a` through its two child
handles. -/
def childRefs (nd : HNode α) (a : Nat) : Nat :=
  (if nd.left = some a then 1 else 0) + (if nd.right = some a then 1 else 0)

/-- Total number of live ownership handles referencing address `a`: root
handles held by the driver plus child handles inside allocated nodes. -/
def refsTo (h : Heap α) (roots : List Nat) (a : Nat) : Nat :=
  roots.count a + (h.map (fun p => childRefs p.2 a)).sum

/-- Well-formed sharing state: every allocated node's refcount equals the
number of live handles referencing it, all root handles point to allocated
nodes, and child handles never dangle. -/
def WF (h : Heap α) (roots : List Nat) : Prop :=
  (∀ p ∈ h, p.2.refcount = (refsTo h roots p.1 : Int)) ∧
  (∀ r ∈ roots, (hfind h r).isSome) ∧
  (∀ p ∈ h, ∀ c : Nat,
    (p.2.left = some c ∨ p.2.right = some c) → (hfind h c).isSome)

/-- Reachability from a live root handle through child handles. -/
inductive Reach (h : Heap α) (roots : List Nat) : Nat → Prop where
  | root {a : Nat} : a ∈ roots → Reach h roots a
  | left {b a : Nat} {nd : HNode α} :
      Reach h roots b → hfind h b = some nd → nd.left = some a →
      Reach h roots a
  | right {b a : Nat} {nd : HNode α} :
      Reach h roots b → hfind h b = some nd → nd.right = some a →
      Reach h roots a

end RefCount

namespace CritBit

/-- `ExternalNode` / `InternalNode` of src/critbit-tree.h: a leaf stores a
key (a byte string, modelled as a list of byte values); an internal node
stores the critical bit index and its two children (`children_[0]`,
`children_[1]`). -/
inductive CNode : Type where
  | ext (key : List Nat) : CNode
  | int (critbit : Nat) (child0 child1 : CNode) : CNode
deriving DecidableEq

/-- The whole tree: `std::optional<NodeVariant> root_`. -/
def CTree : Type := Option CNode

/-- `detail::get_bit`: bit `bit_index` of the key, MSB-first within each
byte, with out-of-range bits reading as 0.  The source's `& 1` on the
shifted byte is the remainder `% 2`. -/
def get_bit (sv : List Nat) (bit_index : Nat) : Nat :=
  (sv.getD (bit_index / 8) 0 >>> (7 - bit_index % 8)) % 2

/-- Byte scan underlying `detail::find_crit_bit`: the index of the first
differing byte together with the two differing byte values, where a string
that ends is compared against an implicit zero byte; `none` iff the strings
are identical. -/
def fcbBytes : List Nat → List Nat → Option (Nat × Nat × Nat)
  | [], [] => none
  | [], c :: _ => some (0, 0, c)
  | c :: _, [] => some (0, c, 0)
  | c1 :: t1, c2 :: t2 =>
    if c1 = c2 then (fcbBytes t1 t2).map (fun r => (r.1 + 1, r.2))
    else some (0, c1, c2)

/-- The portable fallback loop of `find_crit_bit` locating the most
significant set bit of `diff_bits` (0 = MSB).  The mask is always a power of
two (`0x80 >> idx`), so the source's test `!(diff_bits & mask)` is
`diff / mask % 2 = 0`.  Eight iterations suffice for a byte; on `diff = 0`
it returns 8, as `std::countl_zero` does. -/
def msbLoop : Nat → Nat → Nat → Nat → Nat
  | 0, _, _, idx => idx
  | f + 1, diff, mask, idx =>
    if diff / mask % 2 = 0 then msbLoop f diff (mask >>> 1) (idx + 1) else idx

/-- Index (0 = MSB) of the most significant differing bit within a byte. -/
def bitIndexInByte (diff : Nat) : Nat := msbLoop 8 diff 128 0

/-- `detail::find_crit_bit`: 0-based index of the first bit at which the two
keys differ, or `none` when they are identical. -/
def find_crit_bit (s1 s2 : List Nat) : Option Nat :=
  (fcbBytes s1 s2).map (fun r => r.1 * 8 + bitIndexInByte (r.2.1 ^^^ r.2.2))

/-- One element of the descent path recorded by `Insert`/`LowerBound`:
the parent's critbit index, the direction taken, and the child not taken
(enough to rebuild the tree functionally). -/
structure PathE where
  c : Nat
  dir : Nat
  other : CNode
deriving DecidableEq

/-- Plug a subtree back into a path frame (the functional reading of the
parent pointer `children_[direction_taken]`). -/
def plug (t : CNode) (f : PathE) : CNode :=
  if f.dir = 0 then .int f.c t f.other else .int f.c f.other t

/-- Phase 2 of `CritBitTree::Insert`: descend by the key's bits, recording
the path, until an external node is reached; returns the path (root first)
and the existing leaf's key. -/
def buildPath (key : List Nat) : CNode → List PathE × List Nat
  | .ext k => ([], k)
  | .int c c0 c1 =>
    if get_bit key c = 0 then
      let r := buildPath key c0
      (⟨c, get_bit key c, c1⟩ :: r.1, r.2)
    else
      let r := buildPath key c1
      (⟨c, get_bit key c, c0⟩ :: r.1, r.2)

/-- The leaf reached by descending with `key` (the key `buildPath` ends at). -/
def leafOf (key : List Nat) : CNode → List Nat
  | .ext k => k
  | .int c c0 c1 =>
    if get_bit key c = 0 then leafOf key c0 else leafOf key c1

/-- Phase 5 of `CritBitTree::Insert`: walk the recorded path bottom-up and
split it at the deepest ancestor whose critbit is `< new_critbit`.  The input
is the reversed path (deepest frame first); the first component collects the
frames strictly below the insertion point, the second starts with the
ancestor found (empty when the new node becomes the root). -/
def splitAtInsert (newBit : Nat) : List PathE → List PathE × List PathE
  | [] => ([], [])
  | f :: rest =>
    if f.c < newBit then ([], f :: rest)
    else
      let r := splitAtInsert newBit rest
      (f :: r.1, r.2)

/-- `CritBitTree::Insert`.  Phases follow the source: empty tree, descent
(`buildPath`), `find_crit_bit` against the reached leaf with an early return
on identical keys, bottom-up search for the insertion point
(`splitAtInsert` on the reversed path), and restructuring: the displaced
subtree is what the frames below the insertion point rebuild around the
reached leaf, and the new internal node receives the new leaf on the side of
the new key's bit. -/
def Insert (key : List Nat) (t : CTree) : CTree :=
  match t with
  | none => some (.ext key)
  | some root =>
    let pr := buildPath key root
    match find_crit_bit key pr.2 with
    | none => some root
    | some newBit =>
      let keyBit := get_bit key newBit
      let sp := splitAtInsert newBit pr.1.reverse
      let displaced := sp.1.foldl plug (.ext pr.2)
      let newNode : CNode :=
        if keyBit = 0 then .int newBit (.ext key) displaced
        else .int newBit displaced (.ext key)
      some (sp.2.foldl plug newNode)

/-- Keys stored in a subtree (each leaf's key, left to right). -/
def keysC : CNode → List (List Nat)
  | .ext k => [k]
  | .int _ c0 c1 => keysC c0 ++ keysC c1

/-- Keys stored in the whole tree. -/
def keysT : CTree → List (List Nat)
  | none => []
  | some n => keysC n

/-- Keys are byte strings: every byte is below 256 and (per the documented
invariant of src/critbit-tree.h) nonzero. -/
def ValidKey (k : List Nat) : Prop := ∀ c ∈ k, c < 256 ∧ c ≠ 0

/-- Two keys agree on every bit index below `m`. -/
def Agree (m : Nat) (k1 k2 : List Nat) : Prop :=
  ∀ j < m, get_bit k1 j = get_bit k2 j

/-- The crit-bit structural invariant (the one `ValidateInvariants` checks):
below an internal node with critbit `c`, all keys agree on bits `< c`, keys
in `children_[0]` have bit `c` clear and keys in `children_[1]` have it
set. -/
def Good : CNode → Prop
  | .ext _ => True
  | .int c c0 c1 =>
    Good c0 ∧ Good c1 ∧
    (∀ k ∈ keysC c0, get_bit k c = 0) ∧
    (∀ k ∈ keysC c1, get_bit k c = 1) ∧
    (∀ k1 ∈ keysC c0 ++ keysC c1, ∀ k2 ∈ keysC c0 ++ keysC c1, Agree c k1 k2)

/-- Every internal critbit in the subtree exceeds `m`. -/
def minCritGT (m : Nat) : CNode → Prop
  | .ext _ => True
  | .int c c0 c1 => m < c ∧ minCritGT m c0 ∧ minCritGT m c1

/-- Top-down restatement of the splice performed by `Insert` (phases 5–6):
descend while the critbit is `< newBit`, then replace the current subtree by
the new internal node.  On trees whose critbits increase downward — all trees
built by `Insert` — this computes exactly the bottom-up walk of the source;
the equivalence is proved below. -/
def insertDown (key : List Nat) (newBit keyBit : Nat) : CNode → CNode
  | .ext k =>
    if keyBit = 0 then .int newBit (.ext key) (.ext k)
    else .int newBit (.ext k) (.ext key)
  | .int c c0 c1 =>
    if c < newBit then
      if get_bit key c = 0 then .int c (insertDown key newBit keyBit c0) c1
      else .int c c0 (insertDown key newBit keyBit c1)
    else
      if keyBit = 0 then .int newBit (.ext key) (.int c c0 c1)
      else .int newBit (.int c c0 c1) (.ext key)

/-- The driver building a tree by successive inserts from the empty tree. -/
def buildC (l : List (List Nat)) : CTree :=
  l.foldl (fun t k => Insert k t) none

end CritBit

/-! ### Basic facts about the AVL embedding -/

namespace AVLDemo

variable {α : Type} [LinearOrder α]

@[simp] theorem HeightOf_nil : HeightOf (Tree.nil : Tree α) = 0 := rfl

@[simp] theorem HeightOf_node (l : Tree α) (v : α) (r : Tree α) (h : Int) :
    HeightOf (Tree.node l v r h) = h := rfl

@[simp] theorem HeightOf_mkNode (l : Tree α) (v : α) (r : Tree α) :
    HeightOf (mkNode l v r) = max (HeightOf l) (HeightOf r) + 1 := rfl

@[simp] theorem toList_nil : toList (Tree.nil : Tree α) = [] := rfl

@[simp] theorem toList_node (l : Tree α) (v : α) (r : Tree α) (h : Int) :
    toList (Tree.node l v r h) = toList l ++ v :: toList r := rfl

@[simp] theorem toList_mkNode (l : Tree α) (v : α) (r : Tree α) :
    toList (mkNode l v r) = toList l ++ v :: toList r := rfl

@[simp] theorem Hvalid_nil : Hvalid (Tree.nil : Tree α) := trivial

theorem Hvalid_node_iff (l : Tree α) (v : α) (r : Tree α) (h : Int) :
    Hvalid (Tree.node l v r h) ↔
      Hvalid l ∧ Hvalid r ∧ h = max (HeightOf l) (HeightOf r) + 1 :=
  Iff.rfl

theorem Hvalid_mkNode_iff (l : Tree α) (v : α) (r : Tree α) :
    Hvalid (mkNode l v r) ↔ Hvalid l ∧ Hvalid r := by
  simp [mkNode, Hvalid]

@[simp] theorem BalancedT_nil : BalancedT (Tree.nil : Tree α) := trivial

theorem BalancedT_node_iff (l : Tree α) (v : α) (r : Tree α) (h : Int) :
    BalancedT (Tree.node l v r h) ↔
      BalancedT l ∧ BalancedT r ∧ -1 ≤ BalanceOf l r ∧ BalanceOf l r ≤ 1 :=
  Iff.rfl

theorem BalancedT_mkNode_iff (l : Tree α) (v : α) (r : Tree α) :
    BalancedT (mkNode l v r) ↔
      BalancedT l ∧ BalancedT r ∧ -1 ≤ BalanceOf l r ∧ BalanceOf l r ≤ 1 :=
  Iff.rfl

theorem Hvalid_nonneg {t : Tree α} (h : Hvalid t) : 0 ≤ HeightOf t := by
  induction t with
  | nil => simp
  | node l v r ht ihl ihr =>
    rw [Hvalid_node_iff] at h
    have h1 := ihl h.1
    have h2 := ihr h.2.1
    have h3 := h.2.2
    simp only [HeightOf_node]
    omega

/-! Concrete values of the fast-path test `(balance & 3)`. -/

theorem int_land_three_neg_two : Int.land (-2) 3 = 2 := by
  show Int.land (Int.negSucc 1) (Int.ofNat 3) = 2
  simp [Int.land, Nat.ldiff, Nat.bitwise]

theorem int_land_three_neg_one : Int.land (-1) 3 = 3 := by
  show Int.land (Int.negSucc 0) (Int.ofNat 3) = 3
  simp [Int.land, Nat.ldiff, Nat.bitwise]

theorem int_land_three_zero : Int.land 0 3 = 0 := by
  show Int.land (Int.ofNat 0) (Int.ofNat 3) = 0
  simp [Int.land]

theorem int_land_three_one : Int.land 1 3 = 1 := by
  show Int.land (Int.ofNat 1) (Int.ofNat 3) = 1
  simp [Int.land, Nat.land, Nat.bitwise]

theorem int_land_three_two : Int.land 2 3 = 2 := by
  show Int.land (Int.ofNat 2) (Int.ofNat 3) = 2
  simp [Int.land, HAnd.hAnd, AndOp.and, Nat.land, Nat.bitwise]

/-- The fast-path dichotomy over the reachable balance range. -/
theorem land3_ne_two_iff {b : Int} (h1 : -2 ≤ b) (h2 : b ≤ 2) :
    (Int.land b 3 ≠ 2) ↔ (b = -1 ∨ b = 0 ∨ b = 1) := by
  interval_cases b <;>
    simp [int_land_three_neg_two, int_land_three_neg_one, int_land_three_zero,
      int_land_three_one, int_land_three_two]

theorem MakeAndRebalance_fast {l r : Tree α} (v : α)
    (h : Int.land (BalanceOf l r) 3 ≠ 2) :
    MakeAndRebalance l v r = mkNode l v r := by
  simp [MakeAndRebalance, h]

theorem MakeAndRebalance_slow {l r : Tree α} (v : α)
    (h : Int.land (BalanceOf l r) 3 = 2) :
    MakeAndRebalance l v r = MakeAndRebalanceSlowPath l v r (BalanceOf l r) := by
  simp [MakeAndRebalance, h]

/-- The slow path rearranges the same four subtrees and three keys, so the
in-order key sequence is that of the would-be node; the branches the source
rules out by `assert` are modelled preserving this as well. -/
theorem toList_slowPath (l r : Tree α) (v : α) (b : Int) :
    toList (MakeAndRebalanceSlowPath l v r b) = toList l ++ v :: toList r := by
  unfold MakeAndRebalanceSlowPath
  split_ifs with hb
  · cases l with
    | nil => simp
    | node ll lv lr lh =>
      by_cases h1 : BalanceOf ll lr = 1
      · simp only [if_pos h1]
        cases lr with
        | nil => simp
        | node lrl lrv lrr lrh => simp
      · simp only [if_neg h1]
        simp
  · cases r with
    | nil => simp
    | node rl rv rr rh =>
      by_cases h1 : BalanceOf rl rr = -1
      · simp only [if_pos h1]
        cases rl with
        | nil => simp
        | node rll rlv rlr rlh => simp
      · simp only [if_neg h1]
        simp

/-- Rotation (or direct construction) never changes the in-order key
sequence. -/
theorem toList_MakeAndRebalance (l r : Tree α) (v : α) :
    toList (MakeAndRebalance l v r) = toList l ++ v :: toList r := by
  by_cases h : Int.land (BalanceOf l r) 3 ≠ 2
  · rw [MakeAndRebalance_fast v h, toList_mkNode]
  · rw [MakeAndRebalance_slow v (not_not.mp h)]
    exact toList_slowPath l r v _

theorem Insert_eq_InsertRec (t : Tree α) (k : α) : Insert t k = InsertRec t k := by
  cases t <;> rfl

/-- One insertion adds exactly the new key to the in-order sequence (as a
multiset), for arbitrary trees. -/
theorem toList_InsertRec_perm (t : Tree α) (k : α) :
    (toList (InsertRec t k)).Perm (k :: toList t) := by
  induction t with
  | nil => simp [InsertRec]
  | node l v r h ihl ihr =>
    simp only [InsertRec, toList_node]
    split_ifs with hlt
    · rw [toList_MakeAndRebalance]
      simpa using ihl.append_right (v :: toList r)
    · rw [toList_MakeAndRebalance]
      have step1 : (toList l ++ v :: toList (InsertRec r k)).Perm
          ((toList l ++ [v]) ++ k :: toList r) := by
        simpa using (ihr.cons v).append_left (toList l)
      have step2 : ((toList l ++ [v]) ++ k :: toList r).Perm
          (k :: ((toList l ++ [v]) ++ toList r)) := List.perm_middle
      have step3 : (toList l ++ [v]) ++ toList r = toList l ++ v :: toList r := by
        simp
      refine step1.trans (step2.trans ?_)
      rw [step3]

end AVLDemo

/-! ### The effect of insertion on the in-order sequence -/

namespace AVLDemo

variable {α : Type} [LinearOrder α]

theorem insOrd_perm (k : α) (l : List α) : (insOrd k l).Perm (k :: l) := by
  induction l with
  | nil => simp [insOrd]
  | cons x xs ih =>
    by_cases h : k < x
    · simp [insOrd, h]
    · simp only [insOrd, if_neg h]
      exact (ih.cons x).trans (List.Perm.swap k x xs)

theorem mem_insOrd {k x : α} {l : List α} :
    x ∈ insOrd k l ↔ x = k ∨ x ∈ l := by
  rw [(insOrd_perm k l).mem_iff]
  simp

theorem insOrd_append_lt (k v : α) (l1 l2 : List α) (h : k < v) :
    insOrd k (l1 ++ v :: l2) = insOrd k l1 ++ v :: l2 := by
  induction l1 with
  | nil => simp [insOrd, h]
  | cons x xs ih =>
    by_cases hx : k < x
    · simp [insOrd, hx]
    · simp [insOrd, hx, ih]

theorem insOrd_append_ge (k v : α) (l1 l2 : List α)
    (h1 : ∀ x ∈ l1, ¬k < x) (h2 : ¬k < v) :
    insOrd k (l1 ++ v :: l2) = l1 ++ v :: insOrd k l2 := by
  induction l1 with
  | nil => simp [insOrd, h2]
  | cons x xs ih =>
    have hx : ¬k < x := h1 x (by simp)
    simp only [List.cons_append, insOrd, if_neg hx, List.append_eq]
    rw [ih (fun y hy => h1 y (by simp [hy]))]

/-- On a weakly sorted tree, `R::Rec` inserts the new key at its sorted
position (after any equal keys). -/
theorem toList_InsertRec (t : Tree α) (k : α)
    (hs : (toList t).Pairwise (· ≤ ·)) :
    toList (InsertRec t k) = insOrd k (toList t) := by
  induction t with
  | nil => simp [InsertRec, insOrd]
  | node l v r h ihl ihr =>
    rw [toList_node] at hs
    rw [List.pairwise_append] at hs
    obtain ⟨hsl, hsvr, hrel⟩ := hs
    rw [List.pairwise_cons] at hsvr
    obtain ⟨hvr, hsr⟩ := hsvr
    simp only [InsertRec]
    split_ifs with hlt
    · rw [toList_MakeAndRebalance, toList_node, ihl hsl,
        insOrd_append_lt k v _ _ hlt]
    · rw [toList_MakeAndRebalance, toList_node, ihr hsr,
        insOrd_append_ge k v _ _ ?_ hlt]
      intro x hx
      have hxv : x ≤ v := hrel x hx v (by simp)
      have hvk : v ≤ k := not_lt.mp hlt
      exact not_lt.mpr (hxv.trans hvk)

theorem insOrd_pairwise_le {k : α} {l : List α}
    (h : l.Pairwise (· ≤ ·)) : (insOrd k l).Pairwise (· ≤ ·) := by
  induction l with
  | nil => simp [insOrd]
  | cons x xs ih =>
    rw [List.pairwise_cons] at h
    obtain ⟨hx, hxs⟩ := h
    by_cases hk : k < x
    · simp only [insOrd, if_pos hk]
      rw [List.pairwise_cons]
      refine ⟨?_, ?_⟩
      · intro y hy
        rcases List.mem_cons.mp hy with rfl | hy
        · exact hk.le
        · exact hk.le.trans (hx y hy)
      · rw [List.pairwise_cons]
        exact ⟨hx, hxs⟩
    · simp only [insOrd, if_neg hk]
      rw [List.pairwise_cons]
      refine ⟨?_, ih hxs⟩
      intro y hy
      rcases mem_insOrd.mp hy with rfl | hy
      · exact not_lt.mp hk
      · exact hx y hy

theorem insOrd_pairwise_lt {k : α} {l : List α}
    (h : l.Pairwise (· < ·)) (hk : k ∉ l) : (insOrd k l).Pairwise (· < ·) := by
  induction l with
  | nil => simp [insOrd]
  | cons x xs ih =>
    rw [List.pairwise_cons] at h
    obtain ⟨hx, hxs⟩ := h
    have hkx : k ≠ x := fun hkx => hk (hkx ▸ List.mem_cons_self x xs)
    have hkxs : k ∉ xs := fun hm => hk (List.mem_cons_of_mem x hm)
    by_cases hklt : k < x
    · simp only [insOrd, if_pos hklt]
      rw [List.pairwise_cons]
      refine ⟨?_, ?_⟩
      · intro y hy
        rcases List.mem_cons.mp hy with rfl | hy
        · exact hklt
        · exact hklt.trans (hx y hy)
      · rw [List.pairwise_cons]
        exact ⟨hx, hxs⟩
    · simp only [insOrd, if_neg hklt]
      rw [List.pairwise_cons]
      refine ⟨?_, ih hxs hkxs⟩
      intro y hy
      rcases mem_insOrd.mp hy with rfl | hy
      · exact lt_of_le_of_ne (not_lt.mp hklt) (Ne.symm hkx)
      · exact hx y hy

/-- Folding the driver's inserts over any weakly-sorted start keeps the
in-order sequence weakly sorted. -/
theorem foldl_Insert_sorted_le (l : List α) :
    ∀ t : Tree α, (toList t).Pairwise (· ≤ ·) →
      (toList (l.foldl Insert t)).Pairwise (· ≤ ·) := by
  induction l with
  | nil => intro t ht; simpa using ht
  | cons k l ih =>
    intro t ht
    rw [List.foldl_cons]
    refine ih _ ?_
    rw [Insert_eq_InsertRec, toList_InsertRec t k ht]
    exact insOrd_pairwise_le ht

theorem toList_buildTree_sorted_le (l : List α) :
    (toList (buildTree l)).Pairwise (· ≤ ·) := by
  simpa using foldl_Insert_sorted_le l .nil (by simp)

/-- With pairwise-distinct inserted keys the in-order sequence is strictly
sorted. -/
theorem foldl_Insert_sorted_lt (l : List α) :
    ∀ t : Tree α, l.Pairwise (· ≠ ·) → (toList t).Pairwise (· < ·) →
      (∀ x ∈ l, x ∉ toList t) →
      (toList (l.foldl Insert t)).Pairwise (· < ·) := by
  induction l with
  | nil => intro t _ ht _; simpa using ht
  | cons k l ih =>
    intro t hd ht hx
    rw [List.pairwise_cons] at hd
    obtain ⟨hdk, hdl⟩ := hd
    rw [List.foldl_cons]
    have hwk : (toList t).Pairwise (· ≤ ·) := ht.imp le_of_lt
    have hins : toList (Insert t k) = insOrd k (toList t) := by
      rw [Insert_eq_InsertRec]; exact toList_InsertRec t k hwk
    refine ih _ hdl ?_ ?_
    · rw [hins]
      exact insOrd_pairwise_lt ht (hx k (by simp))
    · intro x hxl
      rw [hins, mem_insOrd]
      rintro (rfl | hmem)
      · exact hdk x hxl rfl
      · exact hx x (by simp [hxl]) hmem

theorem toList_buildTree_sorted_lt {l : List α} (hd : l.Pairwise (· ≠ ·)) :
    (toList (buildTree l)).Pairwise (· < ·) := by
  simpa using foldl_Insert_sorted_lt l .nil hd (by simp) (by simp)

/-- The multiset of keys after the driver's inserts is the multiset
inserted. -/
theorem toList_foldl_perm (l : List α) :
    ∀ t : Tree α, (toList (l.foldl Insert t)).Perm (l ++ toList t) := by
  induction l with
  | nil => intro t; simp
  | cons k l ih =>
    intro t
    rw [List.foldl_cons]
    refine (ih (Insert t k)).trans ?_
    have h1 : (toList (Insert t k)).Perm (k :: toList t) := by
      rw [Insert_eq_InsertRec]; exact toList_InsertRec_perm t k
    refine ((h1.append_left l).trans ?_)
    exact List.perm_middle

theorem toList_buildTree_perm (l : List α) :
    (toList (buildTree l)).Perm l := by
  simpa using toList_foldl_perm l .nil

end AVLDemo

/-! ### Height and balance behaviour of rebalancing and insertion -/

namespace AVLDemo

variable {α : Type} [LinearOrder α]

/-- Behaviour of `MakeAndRebalance` on inputs reachable during insertion:
both children valid and balanced, overall balance in `[-2, 2]`.  The result
is valid and balanced, its height lies between the old `max` and `max + 1`,
and when no rotation is needed the height is exactly `max + 1`. -/
theorem MakeAndRebalance_spec (l r : Tree α) (v : α)
    (hvl : Hvalid l) (hvr : Hvalid r) (hbl : BalancedT l) (hbr : BalancedT r)
    (hlo : -2 ≤ BalanceOf l r) (hhi : BalanceOf l r ≤ 2) :
    Hvalid (MakeAndRebalance l v r) ∧ BalancedT (MakeAndRebalance l v r) ∧
    max (HeightOf l) (HeightOf r) ≤ HeightOf (MakeAndRebalance l v r) ∧
    HeightOf (MakeAndRebalance l v r) ≤ max (HeightOf l) (HeightOf r) + 1 ∧
    (BalanceOf l r ≠ -2 → BalanceOf l r ≠ 2 →
      HeightOf (MakeAndRebalance l v r) = max (HeightOf l) (HeightOf r) + 1) := by
  rcases (by omega :
      BalanceOf l r = -2 ∨ (-1 ≤ BalanceOf l r ∧ BalanceOf l r ≤ 1) ∨
        BalanceOf l r = 2) with hb | hb | hb
  · -- left side two deeper: slow path with balance = -2
    have hsl : Int.land (BalanceOf l r) 3 = 2 := by
      rw [hb]; exact int_land_three_neg_two
    rw [MakeAndRebalance_slow v hsl]
    have h0r : 0 ≤ HeightOf r := Hvalid_nonneg hvr
    cases l with
    | nil =>
      exfalso
      simp only [BalanceOf, HeightOf_nil] at hb
      omega
    | node ll lv lr lh =>
      rw [Hvalid_node_iff] at hvl
      obtain ⟨hvll, hvlr, hlh⟩ := hvl
      rw [BalancedT_node_iff] at hbl
      obtain ⟨hbll, hblr, hblo, hbhi⟩ := hbl
      have h0ll : 0 ≤ HeightOf ll := Hvalid_nonneg hvll
      have h0lr : 0 ≤ HeightOf lr := Hvalid_nonneg hvlr
      rw [hb]
      simp only [MakeAndRebalanceSlowPath, eq_self_iff_true, if_true]
      by_cases hd : BalanceOf ll lr = 1
      · rw [if_pos hd]
        cases lr with
        | nil =>
          exfalso
          simp only [BalanceOf, HeightOf_nil] at hd
          omega
        | node lrl lrv lrr lrh2 =>
          rw [Hvalid_node_iff] at hvlr
          obtain ⟨hvlrl, hvlrr, hlrh⟩ := hvlr
          rw [BalancedT_node_iff] at hblr
          obtain ⟨hblrl, hblrr, hblo2, hbhi2⟩ := hblr
          have h0a : 0 ≤ HeightOf lrl := Hvalid_nonneg hvlrl
          have h0b : 0 ≤ HeightOf lrr := Hvalid_nonneg hvlrr
          simp only [BalanceOf, HeightOf_node] at hb hd hblo hbhi hblo2 hbhi2 hlh hlrh ⊢
          refine ⟨?_, ?_, ?_, ?_, ?_⟩
          · rw [Hvalid_mkNode_iff, Hvalid_mkNode_iff, Hvalid_mkNode_iff]
            exact ⟨⟨hvll, hvlrl⟩, hvlrr, hvr⟩
          · rw [BalancedT_mkNode_iff, BalancedT_mkNode_iff, BalancedT_mkNode_iff]
            refine ⟨⟨hbll, hblrl, ?_, ?_⟩, ⟨hblrr, hbr, ?_, ?_⟩, ?_, ?_⟩ <;>
              simp only [BalanceOf, HeightOf_mkNode] <;> omega
          · simp only [HeightOf_mkNode]; omega
          · simp only [HeightOf_mkNode]; omega
          · intro h5 _; exfalso; omega
      · rw [if_neg hd]
        simp only [BalanceOf, HeightOf_node] at hb hd hblo hbhi hlh ⊢
        refine ⟨?_, ?_, ?_, ?_, ?_⟩
        · rw [Hvalid_mkNode_iff, Hvalid_mkNode_iff]
          exact ⟨hvll, hvlr, hvr⟩
        · rw [BalancedT_mkNode_iff, BalancedT_mkNode_iff]
          refine ⟨hbll, ⟨hblr, hbr, ?_, ?_⟩, ?_, ?_⟩ <;>
            simp only [BalanceOf, HeightOf_mkNode] <;> omega
        · simp only [HeightOf_mkNode]; omega
        · simp only [HeightOf_mkNode]; omega
        · intro h5 _; exfalso; omega
  · -- in balance: fast path
    have hne : Int.land (BalanceOf l r) 3 ≠ 2 :=
      (land3_ne_two_iff hlo hhi).mpr (by omega)
    rw [MakeAndRebalance_fast v hne]
    refine ⟨(Hvalid_mkNode_iff l v r).mpr ⟨hvl, hvr⟩,
      (BalancedT_mkNode_iff l v r).mpr ⟨hbl, hbr, hb.1, hb.2⟩, ?_, ?_, ?_⟩
    · simp only [HeightOf_mkNode]; omega
    · simp only [HeightOf_mkNode]; omega
    · intro _ _; rw [HeightOf_mkNode]
  · -- right side two deeper: slow path with balance = 2
    have hsl : Int.land (BalanceOf l r) 3 = 2 := by
      rw [hb]; exact int_land_three_two
    rw [MakeAndRebalance_slow v hsl]
    have h0l : 0 ≤ HeightOf l := Hvalid_nonneg hvl
    cases r with
    | nil =>
      exfalso
      simp only [BalanceOf, HeightOf_nil] at hb
      omega
    | node rl rv rr rh =>
      rw [Hvalid_node_iff] at hvr
      obtain ⟨hvrl, hvrr, hrh⟩ := hvr
      rw [BalancedT_node_iff] at hbr
      obtain ⟨hbrl, hbrr, hblo, hbhi⟩ := hbr
      have h0rl : 0 ≤ HeightOf rl := Hvalid_nonneg hvrl
      have h0rr : 0 ≤ HeightOf rr := Hvalid_nonneg hvrr
      rw [hb]
      have h22 : ¬((2 : Int) = -2) := by decide
      simp only [MakeAndRebalanceSlowPath, if_neg h22]
      by_cases hd : BalanceOf rl rr = -1
      · rw [if_pos hd]
        cases rl with
        | nil =>
          exfalso
          simp only [BalanceOf, HeightOf_nil] at hd
          omega
        | node rll rlv rlr rlh2 =>
          rw [Hvalid_node_iff] at hvrl
          obtain ⟨hvrll, hvrlr, hrlh⟩ := hvrl
          rw [BalancedT_node_iff] at hbrl
          obtain ⟨hbrll, hbrlr, hblo2, hbhi2⟩ := hbrl
          have h0a : 0 ≤ HeightOf rll := Hvalid_nonneg hvrll
          have h0b : 0 ≤ HeightOf rlr := Hvalid_nonneg hvrlr
          simp only [BalanceOf, HeightOf_node] at hb hd hblo hbhi hblo2 hbhi2 hrh hrlh ⊢
          refine ⟨?_, ?_, ?_, ?_, ?_⟩
          · rw [Hvalid_mkNode_iff, Hvalid_mkNode_iff, Hvalid_mkNode_iff]
            exact ⟨⟨hvl, hvrll⟩, hvrlr, hvrr⟩
          · rw [BalancedT_mkNode_iff, BalancedT_mkNode_iff, BalancedT_mkNode_iff]
            refine ⟨⟨hbl, hbrll, ?_, ?_⟩, ⟨hbrlr, hbrr, ?_, ?_⟩, ?_, ?_⟩ <;>
              simp only [BalanceOf, HeightOf_mkNode] <;> omega
          · simp only [HeightOf_mkNode]; omega
          · simp only [HeightOf_mkNode]; omega
          · intro _ h6; exfalso; omega
      · rw [if_neg hd]
        simp only [BalanceOf, HeightOf_node] at hb hd hblo hbhi hrh ⊢
        refine ⟨?_, ?_, ?_, ?_, ?_⟩
        · rw [Hvalid_mkNode_iff, Hvalid_mkNode_iff]
          exact ⟨⟨hvl, hvrl⟩, hvrr⟩
        · rw [BalancedT_mkNode_iff, BalancedT_mkNode_iff]
          refine ⟨⟨hbl, hbrl, ?_, ?_⟩, hbrr, ?_, ?_⟩ <;>
            simp only [BalanceOf, HeightOf_mkNode] <;> omega
        · simp only [HeightOf_mkNode]; omega
        · simp only [HeightOf_mkNode]; omega
        · intro _ h6; exfalso; omega

end AVLDemo

namespace AVLDemo

variable {α : Type} [LinearOrder α]

/-- One recursive insertion step preserves both structural invariants and
grows the root height by at most one. -/
theorem InsertRec_spec (t : Tree α) (k : α) :
    Hvalid t → BalancedT t →
    Hvalid (InsertRec t k) ∧ BalancedT (InsertRec t k) ∧
    HeightOf t ≤ HeightOf (InsertRec t k) ∧
    HeightOf (InsertRec t k) ≤ HeightOf t + 1 := by
  induction t with
  | nil =>
    intro _ _
    refine ⟨?_, ?_, ?_, ?_⟩ <;>
      simp [InsertRec, Hvalid_mkNode_iff, BalancedT_mkNode_iff, BalanceOf]
  | node l v r h ihl ihr =>
    intro hv hb
    rw [Hvalid_node_iff] at hv
    obtain ⟨hvl, hvr, hh⟩ := hv
    rw [BalancedT_node_iff] at hb
    obtain ⟨hbl, hbr, hblo, hbhi⟩ := hb
    have h0l := Hvalid_nonneg hvl
    have h0r := Hvalid_nonneg hvr
    simp only [InsertRec]
    split_ifs with hlt
    · obtain ⟨ihv, ihb, ihlo, ihhi⟩ := ihl hvl hbl
      have hr1 : -2 ≤ BalanceOf (InsertRec l k) r := by
        simp only [BalanceOf] at *; omega
      have hr2 : BalanceOf (InsertRec l k) r ≤ 2 := by
        simp only [BalanceOf] at *; omega
      obtain ⟨mv, mb, mlo, mhi, mexact⟩ :=
        MakeAndRebalance_spec (InsertRec l k) r v ihv hvr ihb hbr hr1 hr2
      refine ⟨mv, mb, ?_, ?_⟩
      · by_cases hcase :
            BalanceOf (InsertRec l k) r = -2 ∨ BalanceOf (InsertRec l k) r = 2
        · simp only [HeightOf_node, BalanceOf] at *
          omega
        · push_neg at hcase
          have hx := mexact hcase.1 hcase.2
          simp only [HeightOf_node, BalanceOf] at *
          omega
      · simp only [HeightOf_node, BalanceOf] at *
        omega
    · obtain ⟨ihv, ihb, ihlo, ihhi⟩ := ihr hvr hbr
      have hr1 : -2 ≤ BalanceOf l (InsertRec r k) := by
        simp only [BalanceOf] at *; omega
      have hr2 : BalanceOf l (InsertRec r k) ≤ 2 := by
        simp only [BalanceOf] at *; omega
      obtain ⟨mv, mb, mlo, mhi, mexact⟩ :=
        MakeAndRebalance_spec l (InsertRec r k) v hvl ihv hbl ihb hr1 hr2
      refine ⟨mv, mb, ?_, ?_⟩
      · by_cases hcase :
            BalanceOf l (InsertRec r k) = -2 ∨ BalanceOf l (InsertRec r k) = 2
        · simp only [HeightOf_node, BalanceOf] at *
          omega
        · push_neg at hcase
          have hx := mexact hcase.1 hcase.2
          simp only [HeightOf_node, BalanceOf] at *
          omega
      · simp only [HeightOf_node, BalanceOf] at *
        omega

/-- All trees built by the driver's inserts are height-correct and
balanced. -/
theorem buildTree_valid (l : List α) :
    Hvalid (buildTree l) ∧ BalancedT (buildTree l) := by
  suffices h : ∀ t : Tree α, Hvalid t → BalancedT t →
      Hvalid (l.foldl Insert t) ∧ BalancedT (l.foldl Insert t) by
    simpa [buildTree] using h .nil trivial trivial
  induction l with
  | nil => intro t h1 h2; exact ⟨h1, h2⟩
  | cons k l ih =>
    intro t h1 h2
    rw [List.foldl_cons, Insert_eq_InsertRec]
    obtain ⟨h1', h2', _, _⟩ := InsertRec_spec t k h1 h2
    exact ih _ h1' h2'

/-- On height-correct trees the stored height agrees with the recomputed
height. -/
theorem HeightOf_eq_RealHeight (t : Tree α) :
    Hvalid t → HeightOf t = (RealHeight t : Int) := by
  induction t with
  | nil => intro _; simp [RealHeight]
  | node l v r h ihl ihr =>
    intro hv
    rw [Hvalid_node_iff] at hv
    obtain ⟨hvl, hvr, hh⟩ := hv
    simp only [HeightOf_node, RealHeight, hh, ihl hvl, ihr hvr]
    push_cast
    omega

/-- Minimal-size bound for balanced trees: a (recomputed) height `h` tree
has at least `fib (h + 2) - 1` keys. -/
theorem fib_le_size (t : Tree α) :
    Hvalid t → BalancedT t → Nat.fib (RealHeight t + 2) ≤ size t + 1 := by
  induction t with
  | nil => intro _ _; simp [RealHeight, size, toList]
  | node l v r h ihl ihr =>
    intro hv hb
    rw [Hvalid_node_iff] at hv
    obtain ⟨hvl, hvr, hh⟩ := hv
    rw [BalancedT_node_iff] at hb
    obtain ⟨hbl, hbr, hblo, hbhi⟩ := hb
    have el := HeightOf_eq_RealHeight l hvl
    have er := HeightOf_eq_RealHeight r hvr
    have hbal1 : RealHeight l ≤ RealHeight r + 1 := by
      simp only [BalanceOf, el, er] at hblo hbhi
      omega
    have hbal2 : RealHeight r ≤ RealHeight l + 1 := by
      simp only [BalanceOf, el, er] at hblo hbhi
      omega
    have hsz : size (Tree.node l v r h) = size l + size r + 1 := by
      simp only [size, toList, List.length_append, List.length_cons]
      omega
    have hrh : RealHeight (Tree.node l v r h)
        = max (RealHeight l) (RealHeight r) + 1 := rfl
    have h1 := ihl hvl hbl
    have h2 := ihr hvr hbr
    rw [hrh, hsz]
    rcases le_total (RealHeight l) (RealHeight r) with hle | hle
    · rw [max_eq_right hle]
      have hfib : Nat.fib (RealHeight r + 1 + 2)
          = Nat.fib (RealHeight r + 1) + Nat.fib (RealHeight r + 2) :=
        Nat.fib_add_two
      have h3 : Nat.fib (RealHeight r + 1) ≤ size l + 1 :=
        (Nat.fib_mono (by omega : RealHeight r + 1 ≤ RealHeight l + 2)).trans h1
      omega
    · rw [max_eq_left hle]
      have hfib : Nat.fib (RealHeight l + 1 + 2)
          = Nat.fib (RealHeight l + 1) + Nat.fib (RealHeight l + 2) :=
        Nat.fib_add_two
      have h3 : Nat.fib (RealHeight l + 1) ≤ size r + 1 :=
        (Nat.fib_mono (by omega : RealHeight l + 1 ≤ RealHeight r + 2)).trans h2
      omega

end AVLDemo

/-! ### Correctness of LowerBound -/

namespace AVLDemo

variable {α : Type} [LinearOrder α]

theorem find?_append_none {p : α → Bool} (l1 l2 : List α)
    (h : ∀ x ∈ l1, p x = false) :
    (l1 ++ l2).find? p = l2.find? p := by
  induction l1 with
  | nil => simp
  | cons x xs ih =>
    rw [List.cons_append, List.find?_cons_of_neg _ (by simp [h x (by simp)])]
    exact ih (fun y hy => h y (by simp [hy]))

theorem find?_append_some {p : α → Bool} {l1 : List α} {m : α} (l2 : List α)
    (h : l1.find? p = some m) :
    (l1 ++ l2).find? p = some m := by
  induction l1 with
  | nil => simp at h
  | cons x xs ih =>
    by_cases hx : p x = true
    · rw [List.find?_cons_of_pos _ hx] at h
      rw [List.cons_append, List.find?_cons_of_pos _ hx]
      exact h
    · rw [List.find?_cons_of_neg _ (by simpa using hx)] at h
      rw [List.cons_append, List.find?_cons_of_neg _ (by simpa using hx)]
      exact ih h

/-- On a weakly sorted list, `find? (q ≤ ·)` returns exactly the minimum
element `≥ q` (`none` iff every element is `< q`). -/
theorem find?_min_of_sorted (q : α) (L : List α) (hs : L.Pairwise (· ≤ ·)) :
    (L.find? (fun x => decide (q ≤ x)) = none ↔ ∀ j ∈ L, j < q) ∧
    (∀ m, L.find? (fun x => decide (q ≤ x)) = some m →
      m ∈ L ∧ q ≤ m ∧ ∀ j ∈ L, q ≤ j → m ≤ j) := by
  induction L with
  | nil => simp
  | cons x xs ih =>
    rw [List.pairwise_cons] at hs
    obtain ⟨hx, hxs⟩ := hs
    obtain ⟨ih1, ih2⟩ := ih hxs
    by_cases hq : q ≤ x
    · have hf : (x :: xs).find? (fun y => decide (q ≤ y)) = some x :=
        List.find?_cons_of_pos _ (by simp [hq])
      constructor
      · rw [hf]
        constructor
        · intro h; simp at h
        · intro h; exact absurd (h x (by simp)) (not_lt.mpr hq)
      · intro m hm
        rw [hf] at hm
        obtain rfl : x = m := Option.some.inj hm
        refine ⟨by simp, hq, ?_⟩
        intro j hj _
        rcases List.mem_cons.mp hj with rfl | hj
        · exact le_refl _
        · exact hx j hj
    · have hf : (x :: xs).find? (fun y => decide (q ≤ y))
          = xs.find? (fun y => decide (q ≤ y)) :=
        List.find?_cons_of_neg _ (by simp [hq])
      constructor
      · rw [hf, ih1]
        constructor
        · intro h j hj
          rcases List.mem_cons.mp hj with rfl | hj
          · exact not_le.mp hq
          · exact h j hj
        · intro h j hj
          exact h j (List.mem_cons_of_mem _ hj)
      · intro m hm
        rw [hf] at hm
        obtain ⟨hmem, hqm, hmin⟩ := ih2 m hm
        refine ⟨List.mem_cons_of_mem _ hmem, hqm, ?_⟩
        intro j hj hqj
        rcases List.mem_cons.mp hj with rfl | hj
        · exact absurd hqj hq
        · exact hmin j hj hqj

/-- The search loop computes `find?` over the in-order sequence, falling back
to the incoming candidate. -/
theorem LowerBoundLoop_eq (t : Tree α) (q : α) (best : Option α) :
    (toList t).Pairwise (· ≤ ·) →
    LowerBoundLoop t q best
      = ((toList t).find? (fun x => decide (q ≤ x))).or best := by
  induction t generalizing best with
  | nil => intro _; simp [LowerBoundLoop, Option.or]
  | node l v r h ihl ihr =>
    intro hs
    rw [toList_node, List.pairwise_append] at hs
    obtain ⟨hsl, hsvr, hrel⟩ := hs
    rw [List.pairwise_cons] at hsvr
    obtain ⟨hvr, hsr⟩ := hsvr
    simp only [LowerBoundLoop, toList_node]
    split_ifs with hlt
    · rw [ihr best hsr]
      have h1 : ∀ x ∈ toList l ++ [v], (fun x => decide (q ≤ x)) x = false := by
        intro x hx
        simp only [decide_eq_false_iff_not, not_le]
        rcases List.mem_append.mp hx with hx | hx
        · exact lt_of_le_of_lt (hrel x hx v (by simp)) hlt
        · simp only [List.mem_singleton] at hx
          subst hx
          exact hlt
      have h2 : (toList l ++ v :: toList r).find? (fun x => decide (q ≤ x))
          = (toList r).find? (fun x => decide (q ≤ x)) := by
        rw [show toList l ++ v :: toList r = (toList l ++ [v]) ++ toList r by simp]
        exact find?_append_none _ _ h1
      rw [h2]
    · rw [ihl (some v) hsl]
      cases hfl : (toList l).find? (fun x => decide (q ≤ x)) with
      | some m =>
        rw [find?_append_some _ hfl]
        simp [Option.or]
      | none =>
        have h1 : ∀ x ∈ toList l, (fun x => decide (q ≤ x)) x = false := by
          intro x hx
          have := List.find?_eq_none.mp hfl x hx
          simpa using this
        have h2 : (toList l ++ v :: toList r).find? (fun x => decide (q ≤ x))
            = some v := by
          rw [find?_append_none _ _ h1]
          exact List.find?_cons_of_pos _ (by simp [not_lt.mp hlt])
        rw [h2]
        simp [Option.or]

/-- `AVLTree::LowerBound` computes `find? (q ≤ ·)` over the in-order
sequence of any tree whose in-order sequence is weakly sorted. -/
theorem LowerBound_eq_find (t : Tree α) (q : α)
    (hs : (toList t).Pairwise (· ≤ ·)) :
    LowerBound t q = (toList t).find? (fun x => decide (q ≤ x)) := by
  cases t with
  | nil => simp [LowerBound]
  | node l v r h =>
    simp only [LowerBound]
    rw [LowerBoundLoop_eq _ q _ hs]
    cases hf : (toList (Tree.node l v r h)).find? (fun x => decide (q ≤ x)) with
    | some m => simp [Option.or]
    | none =>
      have hv : ¬q ≤ v := by
        have := List.find?_eq_none.mp hf v (by simp)
        simpa using this
      rw [if_neg hv]
      simp [Option.or]

end AVLDemo

/-! ### Characterization of the validator -/

namespace AVLDemo

variable {α : Type} [LinearOrder α]

theorem lastOpt_append (prev : Option α) (l1 l2 : List α) :
    lastOpt prev (l1 ++ l2) = lastOpt (lastOpt prev l1) l2 := by
  induction l1 generalizing prev with
  | nil => simp [lastOpt]
  | cons x xs ih => simp [lastOpt, ih]

theorem weakFrom_append (prev : Option α) (l1 l2 : List α) :
    weakFrom prev (l1 ++ l2)
      = (weakFrom prev l1 && weakFrom (lastOpt prev l1) l2) := by
  induction l1 generalizing prev with
  | nil => simp [weakFrom, lastOpt]
  | cons x xs ih =>
    cases prev with
    | none => simpa [weakFrom, lastOpt] using ih (some x)
    | some p => simp [weakFrom, lastOpt, ih (some x), Bool.and_assoc]

/-- A weakly sorted list passes the validator's order check. -/
theorem weakFrom_of_pairwise (L : List α) : ∀ prev : Option α,
    L.Pairwise (· ≤ ·) →
    (match prev, L with
     | some p, x :: _ => p ≤ x
     | _, _ => True) →
    weakFrom prev L = true := by
  induction L with
  | nil => intro prev _ _; cases prev <;> rfl
  | cons x xs ih =>
    intro prev hp hh
    rw [List.pairwise_cons] at hp
    obtain ⟨hx, hxs⟩ := hp
    have htail : weakFrom (some x) xs = true := by
      refine ih (some x) hxs ?_
      cases xs with
      | nil => trivial
      | cons y ys => exact hx y (by simp)
    cases prev with
    | none => simpa [weakFrom] using htail
    | some p => simp [weakFrom, htail]; exact hh

/-- Full characterization of `Checker::Rec`: it succeeds iff all refcounts
are at least 1, all stored heights are correct, all balances are within one,
and the in-order sequence (prefixed by `prev`) is weakly increasing;
on success it returns the stored root height and the last in-order key. -/
theorem ValidateRec_eq (t : RTree α) : ∀ prev : Option α,
    ValidateRec t prev =
      if (RcAllB t && HOkB t && BalOkB t && weakFrom prev (RInorder t)) then
        some (RHeight t, lastOpt prev (RInorder t))
      else none := by
  induction t with
  | rnil =>
    intro prev
    simp [ValidateRec, RcAllB, HOkB, BalOkB, weakFrom, RInorder, RHeight, lastOpt]
  | rnode rc ht l v r ihl ihr =>
    intro prev
    have hexp : (RcAllB (RTree.rnode rc ht l v r) && HOkB (RTree.rnode rc ht l v r)
          && BalOkB (RTree.rnode rc ht l v r)
          && weakFrom prev (RInorder (RTree.rnode rc ht l v r))) = true
        ↔ ((1 ≤ rc) ∧
           ((RcAllB l && HOkB l && BalOkB l && weakFrom prev (RInorder l)) = true) ∧
           (match lastOpt prev (RInorder l) with
            | some p => p ≤ v
            | none => True) ∧
           ((RcAllB r && HOkB r && BalOkB r && weakFrom (some v) (RInorder r)) = true) ∧
           ht = max (RHeight l) (RHeight r) + 1 ∧
           (-1 ≤ RHeight r - RHeight l ∧ RHeight r - RHeight l ≤ 1)) := by
      simp only [RcAllB, HOkB, BalOkB, RInorder, weakFrom_append, weakFrom,
        Bool.and_eq_true, decide_eq_true_eq]
      cases lastOpt prev (RInorder l) with
      | none => simp [weakFrom]; tauto
      | some p => simp [weakFrom]; tauto
    simp only [ValidateRec, ihl prev, ihr (some v)]
    by_cases h1 : rc < 1
    · rw [if_pos h1]
      symm
      rw [if_neg]
      intro hC
      exact absurd (hexp.mp hC).1 (by omega)
    · rw [if_neg h1]
      by_cases hCl : (RcAllB l && HOkB l && BalOkB l && weakFrom prev (RInorder l)) = true
      · rw [if_pos hCl]
        dsimp only []
        by_cases hOrd : (match lastOpt prev (RInorder l) with
            | some p => decide (v < p)
            | none => false) = true
        · rw [if_pos hOrd]
          symm
          rw [if_neg]
          intro hC
          have h3 := (hexp.mp hC).2.2.1
          revert hOrd h3
          cases lastOpt prev (RInorder l) with
          | none => simp
          | some p =>
            simp only [decide_eq_true_eq]
            intro hvp hpv
            exact absurd hpv (not_le.mpr hvp)
        · rw [if_neg hOrd]
          by_cases hCr : (RcAllB r && HOkB r && BalOkB r
              && weakFrom (some v) (RInorder r)) = true
          · rw [if_pos hCr]
            dsimp only []
            by_cases hH : max (RHeight l) (RHeight r) + 1 = ht
            · rw [if_pos hH]
              by_cases hBal : (-1 ≤ RHeight r - RHeight l ∧ RHeight r - RHeight l ≤ 1)
              · rw [if_pos hBal]
                symm
                rw [if_pos]
                · simp [RInorder, RHeight, lastOpt_append, lastOpt]
                · refine hexp.mpr ⟨by omega, hCl, ?_, hCr, by omega, hBal⟩
                  revert hOrd
                  cases lastOpt prev (RInorder l) with
                  | none => intro _; trivial
                  | some p =>
                    simp only [decide_eq_true_eq]
                    intro hOrd
                    exact not_lt.mp hOrd
              · rw [if_neg hBal]
                symm
                rw [if_neg]
                intro hC
                exact absurd (hexp.mp hC).2.2.2.2.2 hBal
            · rw [if_neg hH]
              symm
              rw [if_neg]
              intro hC
              exact absurd (hexp.mp hC).2.2.2.2.1 (by omega)
          · rw [if_neg hCr]
            symm
            rw [if_neg]
            intro hC
            exact absurd (hexp.mp hC).2.2.2.1 hCr
      · rw [if_neg hCl]
        dsimp only []
        symm
        rw [if_neg]
        intro hC
        exact absurd (hexp.mp hC).2.1 hCl

/-- The validator as a whole succeeds iff the three structural conditions
hold and the in-order sequence is weakly (not strictly!) increasing. -/
theorem ValidateB_eq (t : RTree α) :
    ValidateB t = (RcAllB t && HOkB t && BalOkB t && weakFrom none (RInorder t)) := by
  rw [ValidateB, ValidateRec_eq t none]
  by_cases h : (RcAllB t && HOkB t && BalOkB t && weakFrom none (RInorder t)) = true
  · rw [if_pos h, h]; rfl
  · rw [if_neg h]
    have hf : (RcAllB t && HOkB t && BalOkB t && weakFrom none (RInorder t)) = false :=
      Bool.eq_false_iff.mpr h
    rw [hf]
    rfl

end AVLDemo

/-! ### Bridges between pure trees and refcount-annotated trees -/

namespace AVLDemo

variable {α : Type} [LinearOrder α]

theorem RInorder_decorate (t : Tree α) : RInorder (decorate t) = toList t := by
  induction t with
  | nil => rfl
  | node l v r h ihl ihr => simp [decorate, RInorder, toList, ihl, ihr]

theorem RHeight_decorate (t : Tree α) : RHeight (decorate t) = HeightOf t := by
  cases t <;> rfl

theorem RcAllB_decorate (t : Tree α) : RcAllB (decorate t) = true := by
  induction t with
  | nil => rfl
  | node l v r h ihl ihr => simp [decorate, RcAllB, ihl, ihr]

theorem HOkB_decorate (t : Tree α) : HOkB (decorate t) = true ↔ Hvalid t := by
  induction t with
  | nil => simp [decorate, HOkB]
  | node l v r h ihl ihr =>
    simp [decorate, HOkB, RHeight_decorate, Hvalid, ihl, ihr]
    tauto

theorem BalOkB_decorate (t : Tree α) : BalOkB (decorate t) = true ↔ BalancedT t := by
  induction t with
  | nil => simp [decorate, BalOkB]
  | node l v r h ihl ihr =>
    simp [decorate, BalOkB, RHeight_decorate, BalancedT, BalanceOf, ihl, ihr]
    tauto

end AVLDemo

/-! ### Claim theorems for the AVL tree -/

namespace AVLDemo

variable {α : Type} [LinearOrder α]

/-- C1: for every tree built by `Insert` calls and every query `q`,
`LowerBound` returns the minimum stored key `≥ q`, or none if every stored
key is `< q`; a query equal to the maximum stored key returns that key, and
on the empty tree every query returns none. -/
theorem C1_lower_bound_correct (l : List α) (q : α) :
    (∀ m, LowerBound (buildTree l) q = some m →
        m ∈ toList (buildTree l) ∧ q ≤ m ∧
        ∀ j ∈ toList (buildTree l), q ≤ j → m ≤ j) ∧
    (LowerBound (buildTree l) q = none ↔ ∀ j ∈ toList (buildTree l), j < q) ∧
    (∀ m, m ∈ toList (buildTree l) → (∀ j ∈ toList (buildTree l), j ≤ m) →
        LowerBound (buildTree l) m = some m) ∧
    LowerBound (Tree.nil : Tree α) q = none := by
  have hs := toList_buildTree_sorted_le l
  have heq := LowerBound_eq_find (buildTree l) q hs
  obtain ⟨h1, h2⟩ := find?_min_of_sorted q (toList (buildTree l)) hs
  refine ⟨?_, ?_, ?_, rfl⟩
  · intro m hm
    exact h2 m (heq ▸ hm)
  · rw [heq]
    exact h1
  · intro m hmem hmax
    have heqm := LowerBound_eq_find (buildTree l) m hs
    rw [heqm]
    obtain ⟨g1, g2⟩ := find?_min_of_sorted m (toList (buildTree l)) hs
    cases hf : (toList (buildTree l)).find? (fun x => decide (m ≤ x)) with
    | none => exact absurd (g1.mp hf m hmem) (lt_irrefl m)
    | some m' =>
      obtain ⟨hmem', hle1, _⟩ := g2 m' hf
      rw [le_antisymm (hmax m' hmem') hle1]

/-- C2: inserting a fresh key `k` yields a tree whose key set is exactly the
old key set plus `k`; the new version answers every query the old one could
(with an answer at least as good), and answers every query `≤ k` with `k` or
better.  Non-mutation of the prior version holds by construction in this
embedding: `Insert` builds new nodes and leaves the old root's value intact
(all `Node` fields are `const` in the source). -/
theorem C2_insert_persistent (l : List α) (k : α)
    (hk : k ∉ toList (buildTree l)) :
    (∀ x, x ∈ toList (Insert (buildTree l) k) ↔ x = k ∨ x ∈ toList (buildTree l)) ∧
    (∀ q m, LowerBound (buildTree l) q = some m →
      ∃ m', LowerBound (Insert (buildTree l) k) q = some m' ∧ q ≤ m' ∧ m' ≤ m) ∧
    (∀ q, q ≤ k →
      ∃ m', LowerBound (Insert (buildTree l) k) q = some m' ∧ q ≤ m' ∧ m' ≤ k) := by
  have hs := toList_buildTree_sorted_le l
  have hperm : (toList (Insert (buildTree l) k)).Perm (k :: toList (buildTree l)) := by
    rw [Insert_eq_InsertRec]
    exact toList_InsertRec_perm _ k
  have hs' : (toList (Insert (buildTree l) k)).Pairwise (· ≤ ·) := by
    rw [Insert_eq_InsertRec, toList_InsertRec _ k hs]
    exact insOrd_pairwise_le hs
  have hmemk : k ∈ toList (Insert (buildTree l) k) := hperm.mem_iff.mpr (by simp)
  obtain ⟨g1, g2⟩ := find?_min_of_sorted k (toList (Insert (buildTree l) k)) hs'
  refine ⟨?_, ?_, ?_⟩
  · intro x
    rw [hperm.mem_iff]
    simp
  · intro q m hm
    have heq := LowerBound_eq_find (buildTree l) q hs
    have heq' := LowerBound_eq_find (Insert (buildTree l) k) q hs'
    obtain ⟨f1, f2⟩ := find?_min_of_sorted q (toList (buildTree l)) hs
    obtain ⟨e1, e2⟩ := find?_min_of_sorted q (toList (Insert (buildTree l) k)) hs'
    obtain ⟨hmem, hqm, _⟩ := f2 m (heq ▸ hm)
    have hmem' : m ∈ toList (Insert (buildTree l) k) :=
      hperm.mem_iff.mpr (by simp [hmem])
    cases hf : (toList (Insert (buildTree l) k)).find? (fun x => decide (q ≤ x)) with
    | none => exact absurd hqm (not_le.mpr (e1.mp hf m hmem'))
    | some m' =>
      obtain ⟨_, hqm', hmin'⟩ := e2 m' hf
      exact ⟨m', by rw [heq', hf], hqm', hmin' m hmem' hqm⟩
  · intro q hq
    have heq' := LowerBound_eq_find (Insert (buildTree l) k) q hs'
    obtain ⟨e1, e2⟩ := find?_min_of_sorted q (toList (Insert (buildTree l) k)) hs'
    cases hf : (toList (Insert (buildTree l) k)).find? (fun x => decide (q ≤ x)) with
    | none => exact absurd hq (not_le.mpr (e1.mp hf k hmemk))
    | some m' =>
      obtain ⟨_, hqm', hmin'⟩ := e2 m' hf
      exact ⟨m', by rw [heq', hf], hqm', hmin' k hmemk hq⟩

/-- C2 witness at `l = [5]`, `k = 7`. -/
theorem C2_witness :
    (7 : Nat) ∈ toList (Insert (buildTree [(5 : Nat)]) 7) ↔
      (7 : Nat) = 7 ∨ (7 : Nat) ∈ toList (buildTree [(5 : Nat)]) :=
  (C2_insert_persistent [5] 7 (by decide)).1 7

/-- C3: after inserting pairwise-distinct keys starting from the empty tree,
the in-order sequence is strictly increasing, every node is balanced, and
every stored height field is correct. -/
theorem C3_invariants_after_insert (l : List α) (hd : l.Pairwise (· ≠ ·)) :
    (toList (buildTree l)).Pairwise (· < ·) ∧
    BalancedT (buildTree l) ∧ Hvalid (buildTree l) :=
  ⟨toList_buildTree_sorted_lt hd, (buildTree_valid l).2, (buildTree_valid l).1⟩

/-- C3 witness at `l = [2, 1, 3]`. -/
theorem C3_witness :
    (toList (buildTree ([2, 1, 3] : List Nat))).Pairwise (· < ·) ∧
    BalancedT (buildTree ([2, 1, 3] : List Nat)) ∧
    Hvalid (buildTree ([2, 1, 3] : List Nat)) :=
  C3_invariants_after_insert [2, 1, 3] (by decide)

/-- C4 (amended): the validator succeeds exactly when every refcount is
`≥ 1`, every stored height is the recomputed one, every balance is within
one, and the in-order key sequence is weakly — not strictly — increasing
(its order check `node->value < *prev_seen` aborts only on a strict
decrease, so duplicate adjacent keys pass).  The validator is a pure
function of the tree, hence read-only and idempotent. -/
theorem C4_validate_characterization (t : RTree α) :
    ValidateB t = (RcAllB t && HOkB t && BalOkB t && weakFrom none (RInorder t)) :=
  ValidateB_eq t

/-- C4 counterexample: a tree with two equal keys.  Its in-order sequence
`[5, 5]` is not strictly increasing, yet the validator succeeds — refuting
the claim that validation fails fast whenever the in-order sequence is not
strictly increasing. -/
theorem C4_counterexample :
    ValidateB (RTree.rnode 1 2 (RTree.rnode 1 1 RTree.rnil (5 : Nat) RTree.rnil)
        5 RTree.rnil) = true ∧
    ¬(RInorder (RTree.rnode 1 2 (RTree.rnode 1 1 RTree.rnil (5 : Nat) RTree.rnil)
        5 RTree.rnil)).Pairwise (· < ·) := by
  constructor
  · rfl
  · decide

/-- C5 (amended): with overall balance `-2` and a non-null left child, the
code performs the single rotation exactly when `balance(left) ≠ 1`
(equivalently, under the AVL bound, when the left child is left-heavy or
balanced, `balance(left) ≤ 0` — not `≥ 0` as the spec's parenthetical sign
says), and the double rotation promoting the inner grandchild exactly when
`balance(left) = 1`; the mirror dispatch holds for balance `2`, and the in-
order sequence of the four subtrees and three keys is always preserved. -/
theorem C5_rotation_dispatch (l r : Tree α) (v : α) :
    (BalanceOf l r = -2 →
      ∀ ll lv lr lh, l = Tree.node ll lv lr lh →
        ((BalanceOf ll lr ≠ 1 →
            MakeAndRebalance l v r = mkNode ll lv (mkNode lr v r)) ∧
         (BalanceOf ll lr = 1 →
            ∀ lrl lrv lrr lrh, lr = Tree.node lrl lrv lrr lrh →
              MakeAndRebalance l v r
                = mkNode (mkNode ll lv lrl) lrv (mkNode lrr v r)))) ∧
    (BalanceOf l r = 2 →
      ∀ rl rv rr rh, r = Tree.node rl rv rr rh →
        ((BalanceOf rl rr ≠ -1 →
            MakeAndRebalance l v r = mkNode (mkNode l v rl) rv rr) ∧
         (BalanceOf rl rr = -1 →
            ∀ rll rlv rlr rlh, rl = Tree.node rll rlv rlr rlh →
              MakeAndRebalance l v r
                = mkNode (mkNode l v rll) rlv (mkNode rlr rv rr)))) ∧
    toList (MakeAndRebalance l v r) = toList l ++ v :: toList r := by
  refine ⟨?_, ?_, toList_MakeAndRebalance l r v⟩
  · intro hb ll lv lr lh hl
    subst hl
    have hland : Int.land (BalanceOf (Tree.node ll lv lr lh) r) 3 = 2 := by
      rw [hb]; exact int_land_three_neg_two
    rw [MakeAndRebalance_slow v hland, hb]
    constructor
    · intro hne
      simp only [MakeAndRebalanceSlowPath, eq_self_iff_true, if_true, if_neg hne]
    · intro heq lrl lrv lrr lrh hlr
      subst hlr
      simp only [MakeAndRebalanceSlowPath, eq_self_iff_true, if_true, if_pos heq]
  · intro hb rl rv rr rh hr
    subst hr
    have hland : Int.land (BalanceOf l (Tree.node rl rv rr rh)) 3 = 2 := by
      rw [hb]; exact int_land_three_two
    rw [MakeAndRebalance_slow v hland, hb]
    have h22 : ¬((2 : Int) = -2) := by decide
    constructor
    · intro hne
      simp only [MakeAndRebalanceSlowPath, if_neg h22, if_neg hne]
    · intro heq rll rlv rlr rlh hrl
      subst hrl
      simp only [MakeAndRebalanceSlowPath, if_neg h22, if_pos heq]

/-- C5 counterexample: here the left child has `balance(left) = -1 < 0`
(left-heavy), so the claim's stated sign check `balance(left) ≥ 0` calls for
a double rotation; the code performs the single rotation (and a double
rotation is impossible: the inner grandchild is null). -/
theorem C5_counterexample :
    MakeAndRebalance (Tree.node (Tree.node Tree.nil 0 Tree.nil 1) 1 Tree.nil 2)
        (2 : Nat) Tree.nil
      = Tree.node (Tree.node Tree.nil 0 Tree.nil 1) 1
          (Tree.node Tree.nil 2 Tree.nil 1) 2 ∧
    BalanceOf (Tree.node Tree.nil 0 Tree.nil 1) (Tree.nil : Tree Nat) = -1 := by
  constructor
  · have h1 : BalanceOf (Tree.node (Tree.node Tree.nil 0 Tree.nil 1) 1 Tree.nil 2)
        (Tree.nil : Tree Nat) = -2 := rfl
    rw [MakeAndRebalance_slow 2 (by rw [h1]; exact int_land_three_neg_two), h1]
    decide
  · decide

/-- C7: a tree built from `n` pairwise-distinct keys has at least
Fibonacci-many nodes relative to its height —
`fib (height + 2) ≤ n + 1` — the claim's stated equivalent of
`height ≤ ~1.44·log2(n + 2)`. -/
theorem C7_height_fibonacci (l : List α) (hd : l.Pairwise (· ≠ ·)) :
    Nat.fib (RealHeight (buildTree l) + 2) ≤ l.length + 1 := by
  obtain ⟨hv, hb⟩ := buildTree_valid l
  have h1 := fib_le_size (buildTree l) hv hb
  have h2 : size (buildTree l) = l.length := (toList_buildTree_perm l).length_eq
  omega

/-- C7 witness at `l = [2, 1, 3]`. -/
theorem C7_witness :
    Nat.fib (RealHeight (buildTree ([2, 1, 3] : List Nat)) + 2)
      ≤ ([2, 1, 3] : List Nat).length + 1 :=
  C7_height_fibonacci [2, 1, 3] (by decide)

/-- C8: for every balance value in `[-2, 2]`, the optimized test
`(balance & 3) != 2` holds iff `balance ∈ {-1, 0, 1}`; consequently
`MakeAndRebalance` constructs the node directly exactly for those balances
and takes the rotation slow path exactly for `|balance| = 2`. -/
theorem C8_fastpath_equiv (b : Int) (h1 : -2 ≤ b) (h2 : b ≤ 2) :
    ((Int.land b 3 ≠ 2) ↔ (b = -1 ∨ b = 0 ∨ b = 1)) ∧
    (∀ (l r : Tree α) (v : α), BalanceOf l r = b →
      ((b = -1 ∨ b = 0 ∨ b = 1) → MakeAndRebalance l v r = mkNode l v r) ∧
      ((b = -2 ∨ b = 2) →
        MakeAndRebalance l v r = MakeAndRebalanceSlowPath l v r b)) := by
  refine ⟨land3_ne_two_iff h1 h2, ?_⟩
  intro l r v hb
  constructor
  · intro hmem
    exact MakeAndRebalance_fast v
      (by rw [hb]; exact (land3_ne_two_iff h1 h2).mpr hmem)
  · intro hmem
    have hx : Int.land (BalanceOf l r) 3 = 2 := by
      rw [hb]
      rcases hmem with rfl | rfl
      · exact int_land_three_neg_two
      · exact int_land_three_two
    rw [MakeAndRebalance_slow v hx, hb]

/-- C8 witness at `b = 0`. -/
theorem C8_witness :
    (Int.land 0 3 ≠ 2) ↔ ((0 : Int) = -1 ∨ (0 : Int) = 0 ∨ (0 : Int) = 1) :=
  (@C8_fastpath_equiv Nat _ 0 (by decide) (by decide)).1

/-- C9: inserting a key equal to one already stored routes right at the
equal comparison, is neither rejected nor a no-op (the key's multiplicity
grows by one, so the tree holds two nodes with that key), and the resulting
tree still passes the validator, whose in-order check is non-strict. -/
theorem C9_duplicate_insert (l : List α) (k : α) (hk : k ∈ l) :
    List.count k (toList (buildTree (l ++ [k]))) = List.count k l + 1 ∧
    2 ≤ List.count k (toList (buildTree (l ++ [k]))) ∧
    (∀ (L R : Tree α) (ht : Int),
      InsertRec (Tree.node L k R ht) k = MakeAndRebalance L k (InsertRec R k)) ∧
    ValidateB (decorate (buildTree (l ++ [k]))) = true := by
  have hperm := toList_buildTree_perm (l ++ [k])
  have hcount : List.count k (toList (buildTree (l ++ [k])))
      = List.count k (l ++ [k]) := hperm.count_eq k
  have hc2 : List.count k (l ++ [k]) = List.count k l + 1 := by simp
  have hpos : 0 < List.count k l := List.count_pos_iff.mpr hk
  refine ⟨by rw [hcount, hc2], by rw [hcount, hc2]; omega, ?_, ?_⟩
  · intro L R ht
    simp [InsertRec, lt_irrefl]
  · rw [ValidateB_eq]
    obtain ⟨hv, hb⟩ := buildTree_valid (l ++ [k])
    rw [RcAllB_decorate, (HOkB_decorate _).mpr hv, (BalOkB_decorate _).mpr hb,
      RInorder_decorate,
      weakFrom_of_pairwise _ none (toList_buildTree_sorted_le _) trivial]
    rfl

/-- C9 witness at `l = [0]`, `k = 0`. -/
theorem C9_witness :
    2 ≤ List.count 0 (toList (buildTree (([0] : List Nat) ++ [0]))) :=
  (C9_duplicate_insert [0] 0 (by decide)).2.1

end AVLDemo

/-! ### Reference-counting semantics -/

namespace RefCount

variable {α : Type}

theorem hfind_mem {h : Heap α} {a : Nat} {nd : HNode α}
    (hf : hfind h a = some nd) : (a, nd) ∈ h := by
  induction h with
  | nil => simp [hfind] at hf
  | cons p rest ih =>
    obtain ⟨c, nd'⟩ := p
    by_cases hca : c = a
    · subst hca
      simp only [hfind, if_pos rfl] at hf
      obtain rfl := Option.some.inj hf
      exact List.mem_cons_self _ _
    · simp only [hfind, if_neg hca] at hf
      exact List.mem_cons_of_mem _ (ih hf)

theorem hfind_setRc (h : Heap α) (a : Nat) (rc : Int) (b : Nat) :
    hfind (setRc h a rc) b =
      if b = a then (hfind h a).map (fun nd => { nd with refcount := rc })
      else hfind h b := by
  induction h with
  | nil => by_cases hba : b = a <;> simp [hfind, setRc, hba]
  | cons p rest ih =>
    obtain ⟨c, nd⟩ := p
    by_cases hca : c = a
    · subst hca
      by_cases hcb : c = b
      · subst hcb
        simp [setRc, hfind]
      · simp [setRc, hfind, hcb, Ne.symm hcb, ih]
    · by_cases hcb : c = b
      · subst hcb
        simp [setRc, hfind, hca, Ne.symm hca, ih]
      · simp [setRc, hfind, hca, hcb, Ne.symm hcb, ih]

theorem hfind_removeA (h : Heap α) (a b : Nat) :
    hfind (removeA h a) b = if b = a then none else hfind h b := by
  induction h with
  | nil => by_cases hba : b = a <;> simp [hfind, removeA, hba]
  | cons p rest ih =>
    obtain ⟨c, nd⟩ := p
    by_cases hca : c = a
    · subst hca
      by_cases hcb : c = b
      · subst hcb
        simp [removeA, hfind, ih]
      · simp [removeA, hfind, hcb, Ne.symm hcb, ih]
    · by_cases hcb : c = b
      · subst hcb
        simp [removeA, hfind, hca, Ne.symm hca, ih]
      · simp [removeA, hfind, hca, hcb, Ne.symm hcb, ih]

/-- Invariant (4) of the spec: with correct refcounts, every node reachable
from a live root handle is allocated and has refcount at least 1 (the handle
or parent pointing at it contributes to the count). -/
theorem reach_refcount {h : Heap α} {roots : List Nat} (hwf : WF h roots) :
    ∀ b, Reach h roots b → ∃ nd, hfind h b = some nd ∧ 1 ≤ nd.refcount := by
  intro b hb
  induction hb with
  | root hmem =>
    rename_i a
    have hs := hwf.2.1 a hmem
    obtain ⟨nd, hnd⟩ := Option.isSome_iff_exists.mp hs
    refine ⟨nd, hnd, ?_⟩
    have hent : (a, nd) ∈ h := hfind_mem hnd
    have heq : nd.refcount = ((refsTo h roots a : Nat) : Int) := hwf.1 (a, nd) hent
    have hcount : 1 ≤ roots.count a := List.count_pos_iff.mpr hmem
    have hge : (1 : Nat) ≤ refsTo h roots a := by
      unfold refsTo
      omega
    omega
  | left hreach hfb hleft _ih =>
    rename_i b' a nd
    have hmem_b : (b', nd) ∈ h := hfind_mem hfb
    have hsome := hwf.2.2 (b', nd) hmem_b a (Or.inl hleft)
    obtain ⟨nda, hnda⟩ := Option.isSome_iff_exists.mp hsome
    refine ⟨nda, hnda, ?_⟩
    have hmem_a : (a, nda) ∈ h := hfind_mem hnda
    have heq : nda.refcount = ((refsTo h roots a : Nat) : Int) :=
      hwf.1 (a, nda) hmem_a
    have h1 : 1 ≤ childRefs nd a := by
      simp [childRefs, hleft]
    have h2 : childRefs nd a ∈ h.map (fun p => childRefs p.2 a) :=
      List.mem_map_of_mem _ hmem_b
    have h3 : childRefs nd a ≤ (h.map (fun p => childRefs p.2 a)).sum :=
      List.single_le_sum (fun x _ => Nat.zero_le x) _ h2
    have hge : (1 : Nat) ≤ refsTo h roots a := by
      unfold refsTo
      omega
    omega
  | right hreach hfb hright _ih =>
    rename_i b' a nd
    have hmem_b : (b', nd) ∈ h := hfind_mem hfb
    have hsome := hwf.2.2 (b', nd) hmem_b a (Or.inr hright)
    obtain ⟨nda, hnda⟩ := Option.isSome_iff_exists.mp hsome
    refine ⟨nda, hnda, ?_⟩
    have hmem_a : (a, nda) ∈ h := hfind_mem hnda
    have heq : nda.refcount = ((refsTo h roots a : Nat) : Int) :=
      hwf.1 (a, nda) hmem_a
    have h1 : 1 ≤ childRefs nd a := by
      simp [childRefs, hright]
    have h2 : childRefs nd a ∈ h.map (fun p => childRefs p.2 a) :=
      List.mem_map_of_mem _ hmem_b
    have h3 : childRefs nd a ≤ (h.map (fun p => childRefs p.2 a)).sum :=
      List.single_le_sum (fun x _ => Nat.zero_le x) _ h2
    have hge : (1 : Nat) ≤ refsTo h roots a := by
      unfold refsTo
      omega
    omega

/-- C6 (amended): copying a handle increments the refcount; destroying a
handle decrements it, deallocating the node exactly when the count
transitions to 0 (then recursively releasing the right and left child
handles); null handles are no-ops; and with correct counts every node
reachable from a live root handle keeps refcount ≥ 1.  A decrement below
zero is NOT checked: it proceeds silently (see the counterexample). -/
theorem C6_refcount_semantics (h : Heap α) (a : Nat) (nd : HNode α) (fuel : Nat)
    (hf : hfind h a = some nd) :
    (hfind (incRef h (some a)) a = some { nd with refcount := nd.refcount + 1 }) ∧
    (nd.refcount ≠ 1 →
      decRef (fuel + 1) h (some a) = setRc h a (nd.refcount - 1) ∧
      hfind (decRef (fuel + 1) h (some a)) a
        = some { nd with refcount := nd.refcount - 1 }) ∧
    (nd.refcount = 1 →
      decRef (fuel + 1) h (some a)
        = removeA (decRef fuel (decRef fuel (setRc h a 0) nd.right) nd.left) a ∧
      hfind (decRef (fuel + 1) h (some a)) a = none) ∧
    (incRef h none = h ∧ decRef fuel h none = h) ∧
    (∀ roots b, WF h roots → Reach h roots b →
      ∃ nd', hfind h b = some nd' ∧ 1 ≤ nd'.refcount) := by
  refine ⟨?_, ?_, ?_, ⟨rfl, by cases fuel <;> rfl⟩, ?_⟩
  · rw [incRef, hf, hfind_setRc, if_pos rfl, hf]
    rfl
  · intro hne
    have heq : decRef (fuel + 1) h (some a) = setRc h a (nd.refcount - 1) := by
      rw [decRef, hf]
      simp only []
      rw [if_neg (by omega : ¬(nd.refcount - 1 = 0))]
    refine ⟨heq, ?_⟩
    rw [heq, hfind_setRc, if_pos rfl, hf]
    rfl
  · intro hone
    have heq : decRef (fuel + 1) h (some a)
        = removeA (decRef fuel (decRef fuel (setRc h a 0) nd.right) nd.left) a := by
      rw [decRef, hf]
      simp only []
      rw [if_pos (by omega : nd.refcount - 1 = 0), hone]
      norm_num
    refine ⟨heq, ?_⟩
    rw [heq, hfind_removeA, if_pos rfl]
  · intro roots b hwf hreach
    exact reach_refcount hwf b hreach

/-- C6 witness: copying a handle to a node with refcount 2 makes it 3. -/
theorem C6_witness :
    hfind (incRef [((0 : Nat), (⟨2, none, none, (7 : Nat)⟩ : HNode Nat))]
        (some 0)) 0
      = some ⟨3, none, none, 7⟩ :=
  (C6_refcount_semantics [(0, ⟨2, none, none, 7⟩)] 0 ⟨2, none, none, 7⟩ 0 rfl).1

/-- C6 counterexample: `DecRef` on a node whose refcount is already 0
(a decrement below zero) performs no underflow check: it proceeds silently,
leaving the node allocated with refcount `-1` and never deallocating it —
refuting the claimed fail-fast behaviour. -/
theorem C6_counterexample :
    decRef 1 [((0 : Nat), (⟨0, none, none, (7 : Nat)⟩ : HNode Nat))] (some 0)
      = [(0, ⟨-1, none, none, 7⟩)] ∧
    hfind (decRef 1 [((0 : Nat), (⟨0, none, none, (7 : Nat)⟩ : HNode Nat))]
        (some 0)) 0
      = some ⟨-1, none, none, 7⟩ := by
  constructor <;> rfl

end RefCount

/-! ### Crit-bit tree: properties of get_bit and find_crit_bit -/

namespace CritBit

theorem get_bit_lt_two (sv : List Nat) (i : Nat) : get_bit sv i < 2 :=
  Nat.mod_lt _ (by omega)

theorem fcbBytes_self (k : List Nat) : fcbBytes k k = none := by
  induction k with
  | nil => rfl
  | cons c t ih => simp [fcbBytes, ih]

theorem fcbBytes_eq_none {k1 k2 : List Nat} (h : fcbBytes k1 k2 = none) :
    k1 = k2 := by
  induction k1 generalizing k2 with
  | nil =>
    cases k2 with
    | nil => rfl
    | cons c t => simp [fcbBytes] at h
  | cons c t ih =>
    cases k2 with
    | nil => simp [fcbBytes] at h
    | cons c2 t2 =>
      by_cases hc : c = c2
      · subst hc
        have h' : fcbBytes t t2 = none := by
          have h2 : (fcbBytes t t2).map (fun r => (r.1 + 1, r.2)) = none := by
            simpa [fcbBytes] using h
          exact Option.map_eq_none'.mp h2
        rw [ih h']
      · simp [fcbBytes, hc] at h

theorem find_crit_bit_self (k : List Nat) : find_crit_bit k k = none := by
  simp [find_crit_bit, fcbBytes_self]

theorem find_crit_bit_eq_none {k1 k2 : List Nat}
    (h : find_crit_bit k1 k2 = none) : k1 = k2 := by
  simp only [find_crit_bit, Option.map_eq_none'] at h
  exact fcbBytes_eq_none h

/-- Byte-level characterization of the scan: the reported position is the
first differing byte (reading past the end as 0), and for null-free byte
strings the two reported bytes genuinely differ and are bytes. -/
theorem fcbBytes_spec {k1 k2 : List Nat} {i c1 c2 : Nat}
    (hv1 : ValidKey k1) (hv2 : ValidKey k2)
    (h : fcbBytes k1 k2 = some (i, c1, c2)) :
    c1 = k1.getD i 0 ∧ c2 = k2.getD i 0 ∧
    (∀ j < i, k1.getD j 0 = k2.getD j 0) ∧
    c1 ≠ c2 ∧ c1 < 256 ∧ c2 < 256 := by
  induction k1 generalizing k2 i with
  | nil =>
    cases k2 with
    | nil => simp [fcbBytes] at h
    | cons c t =>
      simp only [fcbBytes, Option.some.injEq, Prod.mk.injEq] at h
      obtain ⟨rfl, rfl, rfl⟩ := h
      have hc := hv2 c (by simp)
      refine ⟨rfl, rfl, by omega, ?_, by omega, hc.1⟩
      exact fun hc0 => hc.2 hc0.symm
  | cons a t1 ih =>
    cases k2 with
    | nil =>
      simp only [fcbBytes, Option.some.injEq, Prod.mk.injEq] at h
      obtain ⟨rfl, rfl, rfl⟩ := h
      have ha := hv1 a (by simp)
      exact ⟨rfl, rfl, by omega, ha.2, ha.1, by omega⟩
    | cons b t2 =>
      by_cases hab : a = b
      · subst hab
        have h' : (fcbBytes t1 t2).map (fun r => (r.1 + 1, r.2)) = some (i, c1, c2) := by
          simpa [fcbBytes] using h
        rw [Option.map_eq_some'] at h'
        obtain ⟨⟨i', c1', c2'⟩, hrec, heq⟩ := h'
        simp only [Prod.mk.injEq] at heq
        obtain ⟨hi, hc1, hc2⟩ := heq
        subst hi
        subst hc1
        subst hc2
        have hv1' : ValidKey t1 := fun c hc => hv1 c (by simp [hc])
        have hv2' : ValidKey t2 := fun c hc => hv2 c (by simp [hc])
        obtain ⟨e1, e2, e3, e4, e5, e6⟩ := ih hv1' hv2' hrec
        refine ⟨by simpa using e1, by simpa using e2, ?_, e4, e5, e6⟩
        intro j hj
        cases j with
        | zero => simp
        | succ j' =>
          have := e3 j' (by omega)
          simpa using this
      · simp only [fcbBytes, if_neg hab, Option.some.injEq, Prod.mk.injEq] at h
        obtain ⟨rfl, rfl, rfl⟩ := h
        have ha := hv1 a (by simp)
        have hb := hv2 b (by simp)
        exact ⟨rfl, rfl, by omega, hab, ha.1, hb.1⟩

set_option maxRecDepth 10000 in
/-- Position of the most significant set bit of a nonzero byte, as computed
by the fallback loop. -/
theorem msb_spec : ∀ diff : Nat, diff < 256 → diff ≠ 0 →
    bitIndexInByte diff ≤ 7 ∧
    (diff >>> (7 - bitIndexInByte diff)) % 2 = 1 ∧
    ∀ q < bitIndexInByte diff, (diff >>> (7 - q)) % 2 = 0 := by decide

theorem shift_mod_two_eq_testBit (x s : Nat) :
    (x >>> s) % 2 = (if Nat.testBit x s then 1 else 0) := by
  rw [Nat.shiftRight_eq_div_pow, Nat.testBit_to_div_mod]
  rcases Nat.mod_two_eq_zero_or_one (x / 2 ^ s) with h | h <;> simp [h]

/-- `find_crit_bit` reports a bit index at which the two (null-free) keys
differ, and below which they agree bit-for-bit. -/
theorem find_crit_bit_spec {k1 k2 : List Nat} {n : Nat}
    (hv1 : ValidKey k1) (hv2 : ValidKey k2)
    (h : find_crit_bit k1 k2 = some n) :
    get_bit k1 n ≠ get_bit k2 n ∧ ∀ j < n, get_bit k1 j = get_bit k2 j := by
  simp only [find_crit_bit, Option.map_eq_some'] at h
  obtain ⟨⟨i, c1, c2⟩, hbytes, hn⟩ := h
  obtain ⟨e1, e2, e3, e4, e5, e6⟩ := fcbBytes_spec hv1 hv2 hbytes
  set p := bitIndexInByte (c1 ^^^ c2) with hp
  have hdiff_ne : c1 ^^^ c2 ≠ 0 := fun hz => e4 (Nat.xor_eq_zero.mp hz)
  have hdiff_lt : c1 ^^^ c2 < 256 := by
    have := Nat.xor_lt_two_pow (show c1 < 2 ^ 8 by omega) (show c2 < 2 ^ 8 by omega)
    omega
  obtain ⟨hple, hbit, hbelow⟩ := msb_spec (c1 ^^^ c2) hdiff_lt hdiff_ne
  have hn' : n = i * 8 + p := by omega
  have hdiv : n / 8 = i := by omega
  have hmod : n % 8 = p := by omega
  constructor
  · simp only [get_bit, hdiv, hmod, ← e1, ← e2]
    rw [shift_mod_two_eq_testBit, shift_mod_two_eq_testBit]
    rw [shift_mod_two_eq_testBit] at hbit
    rw [Nat.testBit_xor] at hbit
    by_cases h1 : c1.testBit (7 - p) <;> by_cases h2 : c2.testBit (7 - p) <;>
      simp [h1, h2] at hbit ⊢
  · intro j hj
    have hj8 : j / 8 ≤ i := by omega
    rcases Nat.lt_or_ge (j / 8) i with hlt | hge
    · simp only [get_bit]
      rw [e3 (j / 8) hlt]
    · have hji : j / 8 = i := by omega
      have hq : j % 8 < p := by omega
      simp only [get_bit, hji, ← e1, ← e2]
      have hzero := hbelow (j % 8) hq
      rw [shift_mod_two_eq_testBit] at hzero
      rw [Nat.testBit_xor] at hzero
      rw [shift_mod_two_eq_testBit, shift_mod_two_eq_testBit]
      by_cases h1 : c1.testBit (7 - j % 8) <;> by_cases h2 : c2.testBit (7 - j % 8) <;>
        simp [h1, h2] at hzero ⊢

end CritBit

/-! ### Crit-bit tree: descent paths and the restructuring walk -/

namespace CritBit

theorem buildPath_snd_leafOf (key : List Nat) (t : CNode) :
    (buildPath key t).2 = leafOf key t := by
  induction t with
  | ext k => rfl
  | int c c0 c1 ih0 ih1 =>
    simp only [buildPath, leafOf]
    split_ifs with hb
    · exact ih0
    · exact ih1

theorem buildPath_rebuild (key : List Nat) (t : CNode) :
    (buildPath key t).1.reverse.foldl plug (.ext (buildPath key t).2) = t := by
  induction t with
  | ext k => rfl
  | int c c0 c1 ih0 ih1 =>
    simp only [buildPath]
    split_ifs with hb
    · rw [List.reverse_cons, List.foldl_append, ih0]
      simp [plug, hb]
    · rw [List.reverse_cons, List.foldl_append, ih1]
      simp [plug, hb]

theorem buildPath_dir (key : List Nat) (t : CNode) :
    ∀ f ∈ (buildPath key t).1, f.dir = get_bit key f.c := by
  induction t with
  | ext k => simp [buildPath]
  | int c c0 c1 ih0 ih1 =>
    simp only [buildPath]
    split_ifs with hb <;>
      · intro f hf
        rcases List.mem_cons.mp hf with rfl | hf
        · rfl
        · first
          | exact ih0 f hf
          | exact ih1 f hf

theorem buildPath_critbit_gt (m : Nat) (key : List Nat) (t : CNode)
    (hm : minCritGT m t) : ∀ f ∈ (buildPath key t).1, m < f.c := by
  induction t with
  | ext k => simp [buildPath]
  | int c c0 c1 ih0 ih1 =>
    obtain ⟨hc, h0, h1⟩ := hm
    simp only [buildPath]
    split_ifs with hb <;>
      · intro f hf
        rcases List.mem_cons.mp hf with rfl | hf
        · exact hc
        · first
          | exact ih0 h0 f hf
          | exact ih1 h1 f hf

theorem leafOf_plug (key : List Nat) (f : PathE) (X : CNode)
    (hd : f.dir = get_bit key f.c) :
    leafOf key (plug X f) = leafOf key X := by
  by_cases h0 : f.dir = 0
  · rw [plug, if_pos h0, leafOf, if_pos (by rw [← hd]; exact h0)]
  · rw [plug, if_neg h0, leafOf, if_neg (by rw [← hd]; exact h0)]

theorem leafOf_foldl (key : List Nat) (L : List PathE) :
    ∀ X : CNode, (∀ f ∈ L, f.dir = get_bit key f.c) →
    leafOf key (L.foldl plug X) = leafOf key X := by
  induction L with
  | nil => intro X _; rfl
  | cons f L ih =>
    intro X hF
    rw [List.foldl_cons, ih _ (fun g hg => hF g (by simp [hg])),
      leafOf_plug key f X (hF f (by simp))]

theorem splitAtInsert_spec (nb : Nat) (L : List PathE) :
    (splitAtInsert nb L).1 ++ (splitAtInsert nb L).2 = L ∧
    (∀ f ∈ (splitAtInsert nb L).1, ¬f.c < nb) ∧
    (match (splitAtInsert nb L).2 with
     | [] => True
     | f :: _ => f.c < nb) := by
  induction L with
  | nil => exact ⟨rfl, by simp [splitAtInsert], trivial⟩
  | cons f L ih =>
    by_cases hf : f.c < nb
    · refine ⟨?_, ?_, ?_⟩ <;> simp [splitAtInsert, hf]
    · obtain ⟨ih1, ih2, ih3⟩ := ih
      refine ⟨?_, ?_, ?_⟩
      · simp [splitAtInsert, hf, ih1]
      · intro g hg
        simp only [splitAtInsert, if_neg hf] at hg
        rcases List.mem_cons.mp hg with rfl | hg
        · exact hf
        · exact ih2 g hg
      · simpa [splitAtInsert, hf] using ih3

theorem splitAtInsert_append (nb : Nat) (xs ys : List PathE) :
    splitAtInsert nb (xs ++ ys) =
      if (splitAtInsert nb xs).2 = [] then
        ((splitAtInsert nb xs).1 ++ (splitAtInsert nb ys).1,
          (splitAtInsert nb ys).2)
      else ((splitAtInsert nb xs).1, (splitAtInsert nb xs).2 ++ ys) := by
  induction xs with
  | nil => simp [splitAtInsert]
  | cons f xs ih =>
    by_cases hf : f.c < nb
    · simp [splitAtInsert, hf]
    · have hL : splitAtInsert nb ((f :: xs) ++ ys)
          = (f :: (splitAtInsert nb (xs ++ ys)).1, (splitAtInsert nb (xs ++ ys)).2) := by
        simp [splitAtInsert, hf]
      have hR1 : splitAtInsert nb (f :: xs)
          = (f :: (splitAtInsert nb xs).1, (splitAtInsert nb xs).2) := by
        simp [splitAtInsert, hf]
      rw [hL, hR1, ih]
      by_cases hz : (splitAtInsert nb xs).2 = []
      · simp [hz]
      · simp [hz]

theorem Insert_isSome (key : List Nat) (t : CTree) :
    ∃ root', Insert key t = some root' := by
  cases t with
  | none => exact ⟨.ext key, rfl⟩
  | some root =>
    simp only [Insert]
    cases hfc : find_crit_bit key (buildPath key root).2 with
    | none => exact ⟨root, rfl⟩
    | some nb => exact ⟨_, rfl⟩

theorem leafOf_Insert (key : List Nat) (t : CTree) :
    ∀ root', Insert key t = some root' → leafOf key root' = key := by
  intro root' hr
  cases t with
  | none =>
    obtain rfl := Option.some.inj hr
    rfl
  | some root =>
    simp only [Insert] at hr
    cases hfc : find_crit_bit key (buildPath key root).2 with
    | none =>
      rw [hfc] at hr
      obtain rfl := Option.some.inj hr
      rw [← buildPath_snd_leafOf]
      exact (find_crit_bit_eq_none hfc).symm
    | some nb =>
      rw [hfc] at hr
      obtain rfl := Option.some.inj hr
      obtain ⟨hpart, _, _⟩ := splitAtInsert_spec nb (buildPath key root).1.reverse
      have hdirs : ∀ f ∈ (splitAtInsert nb (buildPath key root).1.reverse).2,
          f.dir = get_bit key f.c := by
        intro f hf
        refine buildPath_dir key root f ?_
        have : f ∈ (buildPath key root).1.reverse := by
          rw [← hpart]
          exact List.mem_append_right _ hf
        exact List.mem_reverse.mp this
      rw [leafOf_foldl key _ _ hdirs]
      by_cases hk : get_bit key nb = 0
      · rw [if_pos hk]
        simp [leafOf, hk]
      · rw [if_neg hk]
        simp [leafOf, hk]

/-- `CritBitTree::Insert` is idempotent per key on every tree: after one
insertion, descending with the same key reaches the freshly placed (or
already present) leaf, `find_crit_bit` reports no differing bit, and the
second insertion returns early. -/
theorem Insert_idem (key : List Nat) (t : CTree) :
    Insert key (Insert key t) = Insert key t := by
  obtain ⟨root', hr⟩ := Insert_isSome key t
  rw [hr]
  have hleaf : leafOf key root' = key := leafOf_Insert key t root' hr
  simp only [Insert, buildPath_snd_leafOf, hleaf, find_crit_bit_self]

end CritBit

/-! ### Crit-bit tree: the structural invariant -/

namespace CritBit

theorem Good_int_iff (c : Nat) (c0 c1 : CNode) :
    Good (.int c c0 c1) ↔
      (Good c0 ∧ Good c1 ∧
       (∀ k ∈ keysC c0, get_bit k c = 0) ∧
       (∀ k ∈ keysC c1, get_bit k c = 1) ∧
       (∀ k1 ∈ keysC c0 ++ keysC c1, ∀ k2 ∈ keysC c0 ++ keysC c1, Agree c k1 k2)) :=
  Iff.rfl

theorem minCritGT_int_iff (m c : Nat) (c0 c1 : CNode) :
    minCritGT m (.int c c0 c1) ↔ (m < c ∧ minCritGT m c0 ∧ minCritGT m c1) :=
  Iff.rfl

theorem keysC_ne_nil (t : CNode) : keysC t ≠ [] := by
  induction t with
  | ext k => simp [keysC]
  | int c c0 c1 ih0 ih1 =>
    intro h
    rcases List.append_eq_nil.mp h with ⟨h0, _⟩
    exact ih0 h0

theorem exists_mem_keysC (t : CNode) : ∃ k, k ∈ keysC t :=
  List.exists_mem_of_ne_nil _ (keysC_ne_nil t)

theorem leafOf_mem_keysC (key : List Nat) (t : CNode) :
    leafOf key t ∈ keysC t := by
  induction t with
  | ext k => simp [leafOf, keysC]
  | int c c0 c1 ih0 ih1 =>
    simp only [leafOf, keysC]
    split_ifs with hb
    · exact List.mem_append_left _ ih0
    · exact List.mem_append_right _ ih1

/-- Under the structural invariant, descending with a stored key reaches
exactly that key's leaf. -/
theorem leafOf_eq_of_mem (key : List Nat) (t : CNode) (hg : Good t)
    (hk : key ∈ keysC t) : leafOf key t = key := by
  induction t with
  | ext k =>
    simp only [keysC, List.mem_singleton] at hk
    simp [leafOf, hk]
  | int c c0 c1 ih0 ih1 =>
    rw [Good_int_iff] at hg
    obtain ⟨hg0, hg1, hb0, hb1, _⟩ := hg
    simp only [keysC, List.mem_append] at hk
    rcases hk with hk | hk
    · rw [leafOf, if_pos (hb0 key hk)]
      exact ih0 hg0 hk
    · rw [leafOf, if_neg (by rw [hb1 key hk]; omega)]
      exact ih1 hg1 hk

theorem critsAbove (t : CNode) (hg : Good t) : ∀ m : Nat,
    (∀ k1 ∈ keysC t, ∀ k2 ∈ keysC t, ∀ j, j ≤ m → get_bit k1 j = get_bit k2 j) →
    minCritGT m t := by
  induction t with
  | ext k => intro m _; trivial
  | int c c0 c1 ih0 ih1 =>
    intro m hagree
    rw [Good_int_iff] at hg
    obtain ⟨hg0, hg1, hb0, hb1, _⟩ := hg
    obtain ⟨ka, hka⟩ := exists_mem_keysC c0
    obtain ⟨kb, hkb⟩ := exists_mem_keysC c1
    rw [minCritGT_int_iff]
    refine ⟨?_, ?_, ?_⟩
    · by_contra hcm
      push_neg at hcm
      have h01 := hagree ka (by simp [keysC, hka]) kb (by simp [keysC, hkb]) c hcm
      rw [hb0 ka hka, hb1 kb hkb] at h01
      omega
    · exact ih0 hg0 m (fun k1 h1 k2 h2 =>
        hagree k1 (by simp [keysC, h1]) k2 (by simp [keysC, h1, h2]))
    · exact ih1 hg1 m (fun k1 h1 k2 h2 =>
        hagree k1 (by simp [keysC, h1]) k2 (by simp [keysC, h1, h2]))

theorem Good_minCrit {c : Nat} {c0 c1 : CNode} (hg : Good (.int c c0 c1)) :
    minCritGT c c0 ∧ minCritGT c c1 := by
  rw [Good_int_iff] at hg
  obtain ⟨hg0, hg1, hb0, hb1, hagree⟩ := hg
  constructor
  · refine critsAbove c0 hg0 c ?_
    intro k1 h1 k2 h2 j hj
    rcases Nat.lt_or_ge j c with hlt | hge
    · exact hagree k1 (List.mem_append_left _ h1) k2 (List.mem_append_left _ h2) j hlt
    · have hjc : j = c := by omega
      subst hjc
      rw [hb0 k1 h1, hb0 k2 h2]
  · refine critsAbove c1 hg1 c ?_
    intro k1 h1 k2 h2 j hj
    rcases Nat.lt_or_ge j c with hlt | hge
    · exact hagree k1 (List.mem_append_right _ h1) k2 (List.mem_append_right _ h2) j hlt
    · have hjc : j = c := by omega
      subst hjc
      rw [hb1 k1 h1, hb1 k2 h2]

theorem insertDown_splice (key : List Nat) (nb : Nat) (X : CNode)
    (h : ∀ f ∈ (buildPath key X).1, ¬f.c < nb) :
    insertDown key nb (get_bit key nb) X
      = (if get_bit key nb = 0 then CNode.int nb (.ext key) X
         else CNode.int nb X (.ext key)) := by
  cases X with
  | ext k => rfl
  | int c c0 c1 =>
    have hc : ¬c < nb := by
      by_cases hb : get_bit key c = 0
      · exact h ⟨c, get_bit key c, c1⟩ (by simp [buildPath, hb])
      · exact h ⟨c, get_bit key c, c0⟩ (by simp [buildPath, hb])
    simp [insertDown, hc]

/-- The bottom-up walk of the source (record the path, split it at the
deepest ancestor with critbit `< newBit`, rebuild) computes the same tree as
the top-down splice, on every tree satisfying the structural invariant. -/
theorem splice_eq_insertDown (key : List Nat) (nb : Nat) : ∀ root : CNode,
    Good root →
    (splitAtInsert nb (buildPath key root).1.reverse).2.foldl plug
      (if get_bit key nb = 0 then
        CNode.int nb (.ext key)
          ((splitAtInsert nb (buildPath key root).1.reverse).1.foldl plug
            (.ext (buildPath key root).2))
      else
        CNode.int nb
          ((splitAtInsert nb (buildPath key root).1.reverse).1.foldl plug
            (.ext (buildPath key root).2))
          (.ext key))
    = insertDown key nb (get_bit key nb) root := by
  intro root
  induction root with
  | ext k => intro _; simp [buildPath, splitAtInsert, insertDown]
  | int c c0 c1 ih0 ih1 =>
    intro hg
    have hmin := Good_minCrit hg
    rw [Good_int_iff] at hg
    obtain ⟨hg0, hg1, _, _, _⟩ := hg
    by_cases hb : get_bit key c = 0
    · -- descend into child 0
      have hpath : (buildPath key (CNode.int c c0 c1)).1
          = ⟨c, get_bit key c, c1⟩ :: (buildPath key c0).1 := by
        simp [buildPath, hb]
      have hleaf : (buildPath key (CNode.int c c0 c1)).2 = (buildPath key c0).2 := by
        simp [buildPath, hb]
      rw [hpath, hleaf, List.reverse_cons,
        splitAtInsert_append nb (buildPath key c0).1.reverse [⟨c, get_bit key c, c1⟩]]
      by_cases hz : (splitAtInsert nb (buildPath key c0).1.reverse).2 = []
      · rw [if_pos hz]
        have h1 : (splitAtInsert nb (buildPath key c0).1.reverse).1
            = (buildPath key c0).1.reverse := by
          have hp := (splitAtInsert_spec nb (buildPath key c0).1.reverse).1
          rw [hz, List.append_nil] at hp
          exact hp
        have hnoframe : ∀ f ∈ (buildPath key c0).1, ¬f.c < nb := by
          intro f hf
          refine (splitAtInsert_spec nb (buildPath key c0).1.reverse).2.1 f ?_
          rw [h1]
          exact List.mem_reverse.mpr hf
        by_cases hc : c < nb
        · have hsf : splitAtInsert nb [(⟨c, get_bit key c, c1⟩ : PathE)]
              = ([], [⟨c, get_bit key c, c1⟩]) := by
            simp [splitAtInsert, hc]
          rw [hsf]
          simp only [List.append_nil, List.foldl_cons, List.foldl_nil, h1]
          rw [buildPath_rebuild key c0]
          rw [show (insertDown key nb (get_bit key nb) (CNode.int c c0 c1))
              = CNode.int c (insertDown key nb (get_bit key nb) c0) c1 from by
            simp [insertDown, hc, hb]]
          rw [insertDown_splice key nb c0 hnoframe]
          simp [plug, hb]
        · have hsf : splitAtInsert nb [(⟨c, get_bit key c, c1⟩ : PathE)]
              = ([⟨c, get_bit key c, c1⟩], []) := by
            simp [splitAtInsert, hc]
          rw [hsf]
          simp only [List.foldl_nil, h1, List.foldl_append, List.foldl_cons]
          rw [buildPath_rebuild key c0]
          rw [show (insertDown key nb (get_bit key nb) (CNode.int c c0 c1))
              = (if get_bit key nb = 0 then
                  CNode.int nb (.ext key) (CNode.int c c0 c1)
                 else CNode.int nb (CNode.int c c0 c1) (.ext key)) from by
            simp [insertDown, hc]]
          have hplug : plug c0 ⟨c, get_bit key c, c1⟩ = CNode.int c c0 c1 := by
            simp [plug, hb]
          rw [hplug]
      · rw [if_neg hz]
        have hc : c < nb := by
          obtain ⟨f, rest, hfr⟩ : ∃ f rest,
              (splitAtInsert nb (buildPath key c0).1.reverse).2 = f :: rest := by
            cases hE : (splitAtInsert nb (buildPath key c0).1.reverse).2 with
            | nil => exact absurd hE hz
            | cons f rest => exact ⟨f, rest, rfl⟩
          have hflt : f.c < nb := by
            have := (splitAtInsert_spec nb (buildPath key c0).1.reverse).2.2
            rw [hfr] at this
            exact this
          have hfmem : f ∈ (buildPath key c0).1 := by
            have hp := (splitAtInsert_spec nb (buildPath key c0).1.reverse).1
            have : f ∈ (buildPath key c0).1.reverse := by
              rw [← hp]
              exact List.mem_append_right _ (by rw [hfr]; simp)
            exact List.mem_reverse.mp this
          have := buildPath_critbit_gt c key c0 hmin.1 f hfmem
          omega
        rw [List.foldl_append]
        simp only [List.foldl_cons, List.foldl_nil]
        rw [ih0 hg0]
        rw [show (insertDown key nb (get_bit key nb) (CNode.int c c0 c1))
            = CNode.int c (insertDown key nb (get_bit key nb) c0) c1 from by
          simp [insertDown, hc, hb]]
        simp [plug, hb]
    · -- descend into child 1 (mirror)
      have hpath : (buildPath key (CNode.int c c0 c1)).1
          = ⟨c, get_bit key c, c0⟩ :: (buildPath key c1).1 := by
        simp [buildPath, hb]
      have hleaf : (buildPath key (CNode.int c c0 c1)).2 = (buildPath key c1).2 := by
        simp [buildPath, hb]
      rw [hpath, hleaf, List.reverse_cons,
        splitAtInsert_append nb (buildPath key c1).1.reverse [⟨c, get_bit key c, c0⟩]]
      by_cases hz : (splitAtInsert nb (buildPath key c1).1.reverse).2 = []
      · rw [if_pos hz]
        have h1 : (splitAtInsert nb (buildPath key c1).1.reverse).1
            = (buildPath key c1).1.reverse := by
          have hp := (splitAtInsert_spec nb (buildPath key c1).1.reverse).1
          rw [hz, List.append_nil] at hp
          exact hp
        have hnoframe : ∀ f ∈ (buildPath key c1).1, ¬f.c < nb := by
          intro f hf
          refine (splitAtInsert_spec nb (buildPath key c1).1.reverse).2.1 f ?_
          rw [h1]
          exact List.mem_reverse.mpr hf
        by_cases hc : c < nb
        · have hsf : splitAtInsert nb [(⟨c, get_bit key c, c0⟩ : PathE)]
              = ([], [⟨c, get_bit key c, c0⟩]) := by
            simp [splitAtInsert, hc]
          rw [hsf]
          simp only [List.append_nil, List.foldl_cons, List.foldl_nil, h1]
          rw [buildPath_rebuild key c1]
          rw [show (insertDown key nb (get_bit key nb) (CNode.int c c0 c1))
              = CNode.int c c0 (insertDown key nb (get_bit key nb) c1) from by
            simp [insertDown, hc, hb]]
          rw [insertDown_splice key nb c1 hnoframe]
          simp [plug, hb]
        · have hsf : splitAtInsert nb [(⟨c, get_bit key c, c0⟩ : PathE)]
              = ([⟨c, get_bit key c, c0⟩], []) := by
            simp [splitAtInsert, hc]
          rw [hsf]
          simp only [List.foldl_nil, h1, List.foldl_append, List.foldl_cons]
          rw [buildPath_rebuild key c1]
          rw [show (insertDown key nb (get_bit key nb) (CNode.int c c0 c1))
              = (if get_bit key nb = 0 then
                  CNode.int nb (.ext key) (CNode.int c c0 c1)
                 else CNode.int nb (CNode.int c c0 c1) (.ext key)) from by
            simp [insertDown, hc]]
          have hplug : plug c1 ⟨c, get_bit key c, c0⟩ = CNode.int c c0 c1 := by
            simp [plug, hb]
          rw [hplug]
      · rw [if_neg hz]
        have hc : c < nb := by
          obtain ⟨f, rest, hfr⟩ : ∃ f rest,
              (splitAtInsert nb (buildPath key c1).1.reverse).2 = f :: rest := by
            cases hE : (splitAtInsert nb (buildPath key c1).1.reverse).2 with
            | nil => exact absurd hE hz
            | cons f rest => exact ⟨f, rest, rfl⟩
          have hflt : f.c < nb := by
            have := (splitAtInsert_spec nb (buildPath key c1).1.reverse).2.2
            rw [hfr] at this
            exact this
          have hfmem : f ∈ (buildPath key c1).1 := by
            have hp := (splitAtInsert_spec nb (buildPath key c1).1.reverse).1
            have : f ∈ (buildPath key c1).1.reverse := by
              rw [← hp]
              exact List.mem_append_right _ (by rw [hfr]; simp)
            exact List.mem_reverse.mp this
          have := buildPath_critbit_gt c key c1 hmin.2 f hfmem
          omega
        rw [List.foldl_append]
        simp only [List.foldl_cons, List.foldl_nil]
        rw [ih1 hg1]
        rw [show (insertDown key nb (get_bit key nb) (CNode.int c c0 c1))
            = CNode.int c c0 (insertDown key nb (get_bit key nb) c1) from by
          simp [insertDown, hc, hb]]
        simp [plug, hb]

end CritBit

/-! ### Crit-bit tree: insertion preserves the invariant; duplicate keys -/

namespace CritBit

theorem splice_good (key : List Nat) (nb : Nat) (t : CNode) (hg : Good t)
    (hdiff : ∀ x ∈ keysC t, get_bit x nb ≠ get_bit key nb)
    (hka : ∀ x ∈ keysC t, Agree nb key x)
    (htt : ∀ x ∈ keysC t, ∀ y ∈ keysC t, Agree nb x y) :
    Good (if get_bit key nb = 0 then CNode.int nb (.ext key) t
          else CNode.int nb t (.ext key)) ∧
    (∀ x, x ∈ keysC (if get_bit key nb = 0 then CNode.int nb (.ext key) t
          else CNode.int nb t (.ext key)) ↔ x = key ∨ x ∈ keysC t) := by
  have hkb2 := get_bit_lt_two key nb
  by_cases hkb : get_bit key nb = 0
  · rw [if_pos hkb]
    constructor
    · rw [Good_int_iff]
      refine ⟨trivial, hg, ?_, ?_, ?_⟩
      · intro x hx
        simp only [keysC, List.mem_singleton] at hx
        subst hx
        exact hkb
      · intro x hx
        have h2 := get_bit_lt_two x nb
        have := hdiff x hx
        omega
      · intro x hx y hy
        have hx' : x = key ∨ x ∈ keysC t := by simpa [keysC] using hx
        have hy' : y = key ∨ y ∈ keysC t := by simpa [keysC] using hy
        rcases hx' with rfl | hx' <;> rcases hy' with rfl | hy'
        · intro j _; rfl
        · exact hka y hy'
        · exact fun j hj => (hka x hx' j hj).symm
        · exact htt x hx' y hy'
    · intro x
      simp [keysC]
  · rw [if_neg hkb]
    constructor
    · rw [Good_int_iff]
      refine ⟨hg, trivial, ?_, ?_, ?_⟩
      · intro x hx
        have h2 := get_bit_lt_two x nb
        have := hdiff x hx
        omega
      · intro x hx
        simp only [keysC, List.mem_singleton] at hx
        subst hx
        omega
      · intro x hx y hy
        have hx' : x ∈ keysC t ∨ x = key := by simpa [keysC] using hx
        have hy' : y ∈ keysC t ∨ y = key := by simpa [keysC] using hy
        rcases hx' with hx' | rfl <;> rcases hy' with hy' | rfl
        · exact htt x hx' y hy'
        · exact fun j hj => (hka x hx' j hj).symm
        · exact hka y hy'
        · intro j _; rfl
    · intro x
      simp [keysC]
      tauto

theorem graft_left (key : List Nat) (c : Nat) (c0 c1 d0 : CNode)
    (hg : Good (.int c c0 c1)) (hd0 : Good d0)
    (hk0 : ∀ x, x ∈ keysC d0 ↔ x = key ∨ x ∈ keysC c0)
    (hbit : get_bit key c = 0)
    (hkey : ∀ j < c, ∀ z ∈ keysC c0 ++ keysC c1, get_bit key j = get_bit z j) :
    Good (.int c d0 c1) ∧
    (∀ x, x ∈ keysC (.int c d0 c1) ↔ x = key ∨ x ∈ keysC (.int c c0 c1)) := by
  rw [Good_int_iff] at hg
  obtain ⟨hg0, hg1, hb0, hb1, hagree⟩ := hg
  have hmem : ∀ z, z ∈ keysC d0 ++ keysC c1 → z = key ∨ z ∈ keysC c0 ++ keysC c1 := by
    intro z hz
    rcases List.mem_append.mp hz with hz | hz
    · rcases (hk0 z).mp hz with rfl | hz
      · exact Or.inl rfl
      · exact Or.inr (List.mem_append_left _ hz)
    · exact Or.inr (List.mem_append_right _ hz)
  constructor
  · rw [Good_int_iff]
    refine ⟨hd0, hg1, ?_, hb1, ?_⟩
    · intro x hx
      rcases (hk0 x).mp hx with rfl | hx
      · exact hbit
      · exact hb0 x hx
    · intro x hx y hy
      rcases hmem x hx with rfl | hx' <;> rcases hmem y hy with rfl | hy'
      · intro j _; rfl
      · exact fun j hj => hkey j hj y hy'
      · exact fun j hj => (hkey j hj x hx').symm
      · exact hagree x hx' y hy'
  · intro x
    simp only [keysC, List.mem_append]
    constructor
    · rintro (hx | hx)
      · rcases (hk0 x).mp hx with rfl | hx
        · exact Or.inl rfl
        · exact Or.inr (Or.inl hx)
      · exact Or.inr (Or.inr hx)
    · rintro (rfl | hx | hx)
      · exact Or.inl ((hk0 x).mpr (Or.inl rfl))
      · exact Or.inl ((hk0 x).mpr (Or.inr hx))
      · exact Or.inr hx

theorem graft_right (key : List Nat) (c : Nat) (c0 c1 d1 : CNode)
    (hg : Good (.int c c0 c1)) (hd1 : Good d1)
    (hk1 : ∀ x, x ∈ keysC d1 ↔ x = key ∨ x ∈ keysC c1)
    (hbit : get_bit key c = 1)
    (hkey : ∀ j < c, ∀ z ∈ keysC c0 ++ keysC c1, get_bit key j = get_bit z j) :
    Good (.int c c0 d1) ∧
    (∀ x, x ∈ keysC (.int c c0 d1) ↔ x = key ∨ x ∈ keysC (.int c c0 c1)) := by
  rw [Good_int_iff] at hg
  obtain ⟨hg0, hg1, hb0, hb1, hagree⟩ := hg
  have hmem : ∀ z, z ∈ keysC c0 ++ keysC d1 → z = key ∨ z ∈ keysC c0 ++ keysC c1 := by
    intro z hz
    rcases List.mem_append.mp hz with hz | hz
    · exact Or.inr (List.mem_append_left _ hz)
    · rcases (hk1 z).mp hz with rfl | hz
      · exact Or.inl rfl
      · exact Or.inr (List.mem_append_right _ hz)
  constructor
  · rw [Good_int_iff]
    refine ⟨hg0, hd1, hb0, ?_, ?_⟩
    · intro x hx
      rcases (hk1 x).mp hx with rfl | hx
      · exact hbit
      · exact hb1 x hx
    · intro x hx y hy
      rcases hmem x hx with rfl | hx' <;> rcases hmem y hy with rfl | hy'
      · intro j _; rfl
      · exact fun j hj => hkey j hj y hy'
      · exact fun j hj => (hkey j hj x hx').symm
      · exact hagree x hx' y hy'
  · intro x
    simp only [keysC, List.mem_append]
    constructor
    · rintro (hx | hx)
      · exact Or.inr (Or.inl hx)
      · rcases (hk1 x).mp hx with rfl | hx
        · exact Or.inl rfl
        · exact Or.inr (Or.inr hx)
    · rintro (rfl | hx | hx)
      · exact Or.inr ((hk1 x).mpr (Or.inl rfl))
      · exact Or.inl hx
      · exact Or.inr ((hk1 x).mpr (Or.inr hx))

/-- The splice preserves the crit-bit invariant and adds exactly the new
key. -/
theorem insertDown_good (key : List Nat) (nb : Nat) : ∀ t : CNode,
    Good t → ValidKey key → (∀ k ∈ keysC t, ValidKey k) →
    find_crit_bit key (leafOf key t) = some nb →
    Good (insertDown key nb (get_bit key nb) t) ∧
    (∀ x, x ∈ keysC (insertDown key nb (get_bit key nb) t) ↔
      x = key ∨ x ∈ keysC t) := by
  intro t
  induction t with
  | ext k =>
    intro hg hvk hvt hf
    obtain ⟨hne, hagr⟩ :=
      find_crit_bit_spec hvk (hvt k (by simp [keysC])) hf
    have hres := splice_good key nb (.ext k) trivial
      (fun x hx => by
        simp only [keysC, List.mem_singleton] at hx
        subst hx
        exact fun he => hne he.symm)
      (fun x hx => by
        simp only [keysC, List.mem_singleton] at hx
        subst hx
        exact fun j hj => hagr j hj)
      (fun x hx y hy => by
        simp only [keysC, List.mem_singleton] at hx hy
        subst hx; subst hy
        intro j _; rfl)
    by_cases hkb : get_bit key nb = 0
    · rw [show insertDown key nb (get_bit key nb) (.ext k)
          = CNode.int nb (.ext key) (.ext k) from by simp [insertDown, hkb]]
      rw [if_pos hkb] at hres
      exact hres
    · rw [show insertDown key nb (get_bit key nb) (.ext k)
          = CNode.int nb (.ext k) (.ext key) from by simp [insertDown, hkb]]
      rw [if_neg hkb] at hres
      exact hres
  | int c c0 c1 ih0 ih1 =>
    intro hg hvk hvt hf
    have hgi := hg
    rw [Good_int_iff] at hgi
    obtain ⟨hg0, hg1, hb0, hb1, hagree⟩ := hgi
    have hlkmem : leafOf key (.int c c0 c1) ∈ keysC (.int c c0 c1) :=
      leafOf_mem_keysC key _
    obtain ⟨hne, hagr⟩ := find_crit_bit_spec hvk (hvt _ hlkmem) hf
    by_cases hc : c < nb
    · -- descend
      have hkey : ∀ j < c, ∀ z ∈ keysC c0 ++ keysC c1,
          get_bit key j = get_bit z j := by
        intro j hj z hz
        have h1 : get_bit key j = get_bit (leafOf key (.int c c0 c1)) j :=
          hagr j (by omega)
        have h2 : get_bit (leafOf key (.int c c0 c1)) j = get_bit z j :=
          hagree _ hlkmem z hz j hj
        exact h1.trans h2
      by_cases hb : get_bit key c = 0
      · have hlf : leafOf key (.int c c0 c1) = leafOf key c0 := by
          simp [leafOf, hb]
        rw [hlf] at hf
        obtain ⟨ihg, ihk⟩ :=
          ih0 hg0 hvk (fun k hk => hvt k (by simp [keysC, hk])) hf
        rw [show insertDown key nb (get_bit key nb) (.int c c0 c1)
            = CNode.int c (insertDown key nb (get_bit key nb) c0) c1 from by
          simp [insertDown, hc, hb]]
        exact graft_left key c c0 c1 _ hg ihg ihk hb hkey
      · have hb1' : get_bit key c = 1 := by
          have := get_bit_lt_two key c
          omega
        have hlf : leafOf key (.int c c0 c1) = leafOf key c1 := by
          simp [leafOf, hb]
        rw [hlf] at hf
        obtain ⟨ihg, ihk⟩ :=
          ih1 hg1 hvk (fun k hk => hvt k (by simp [keysC, hk])) hf
        rw [show insertDown key nb (get_bit key nb) (.int c c0 c1)
            = CNode.int c c0 (insertDown key nb (get_bit key nb) c1) from by
          simp [insertDown, hc, hb]]
        exact graft_right key c c0 c1 _ hg ihg ihk hb1' hkey
    · -- splice here; first show nb < c
      have hkc : get_bit key c = get_bit (leafOf key (.int c c0 c1)) c := by
        by_cases hb : get_bit key c = 0
        · have hlf : leafOf key (.int c c0 c1) = leafOf key c0 := by
            simp [leafOf, hb]
          rw [hlf, hb, hb0 _ (leafOf_mem_keysC key c0)]
        · have hb1' : get_bit key c = 1 := by
            have := get_bit_lt_two key c
            omega
          have hlf : leafOf key (.int c c0 c1) = leafOf key c1 := by
            simp [leafOf, hb]
          rw [hlf, hb1', hb1 _ (leafOf_mem_keysC key c1)]
      have hcnb : nb < c := by
        rcases Nat.lt_or_ge nb c with h | h
        · exact h
        · have hceq : c = nb := by omega
          subst hceq
          exact absurd hkc hne
      have hres := splice_good key nb (.int c c0 c1) hg
        (fun x hx => by
          have hxlk : get_bit x nb = get_bit (leafOf key (.int c c0 c1)) nb :=
            hagree x hx _ hlkmem nb hcnb
          rw [hxlk]
          exact fun he => hne he.symm)
        (fun x hx j hj => by
          have h1 : get_bit key j = get_bit (leafOf key (.int c c0 c1)) j :=
            hagr j hj
          have h2 : get_bit (leafOf key (.int c c0 c1)) j = get_bit x j :=
            hagree _ hlkmem x hx j (by omega)
          exact h1.trans h2)
        (fun x hx y hy j hj => hagree x hx y hy j (by omega))
      by_cases hkb : get_bit key nb = 0
      · rw [show insertDown key nb (get_bit key nb) (.int c c0 c1)
            = CNode.int nb (.ext key) (.int c c0 c1) from by
          simp [insertDown, hc, hkb]]
        rw [if_pos hkb] at hres
        exact hres
      · rw [show insertDown key nb (get_bit key nb) (.int c c0 c1)
            = CNode.int nb (.int c c0 c1) (.ext key) from by
          simp [insertDown, hc, hkb]]
        rw [if_neg hkb] at hres
        exact hres

end CritBit

namespace CritBit

theorem Insert_good (key : List Nat) (t : CTree)
    (hvk : ValidKey key)
    (hgt : ∀ root, t = some root → Good root ∧ ∀ k ∈ keysC root, ValidKey k) :
    ∀ root', Insert key t = some root' →
      Good root' ∧ (∀ k ∈ keysC root', ValidKey k) ∧
      (∀ x, x ∈ keysC root' ↔ x = key ∨ x ∈ keysT t) := by
  intro root' hr
  cases t with
  | none =>
    obtain rfl := Option.some.inj hr
    refine ⟨trivial, ?_, ?_⟩
    · intro k hk
      simp only [keysC, List.mem_singleton] at hk
      subst hk
      exact hvk
    · intro x
      simp [keysC, keysT]
  | some root =>
    obtain ⟨hg, hv⟩ := hgt root rfl
    simp only [Insert] at hr
    cases hfc : find_crit_bit key (buildPath key root).2 with
    | none =>
      rw [hfc] at hr
      obtain rfl := Option.some.inj hr
      have hkeq : key = leafOf key root := by
        rw [← buildPath_snd_leafOf]
        exact find_crit_bit_eq_none hfc
      refine ⟨hg, hv, ?_⟩
      intro x
      simp only [keysT]
      constructor
      · exact Or.inr
      · intro h
        rcases h with h | hx
        · subst h
          rw [hkeq]
          exact leafOf_mem_keysC _ root
        · exact hx
    | some nb =>
      rw [hfc] at hr
      obtain rfl := Option.some.inj hr
      have hfc' : find_crit_bit key (leafOf key root) = some nb := by
        rw [← buildPath_snd_leafOf]
        exact hfc
      obtain ⟨ihg, ihk⟩ := insertDown_good key nb root hg hvk hv hfc'
      have heq := splice_eq_insertDown key nb root hg
      refine ⟨?_, ?_, ?_⟩
      · rw [heq]
        exact ihg
      · intro k hk
        rw [heq] at hk
        rcases (ihk k).mp hk with rfl | hk
        · exact hvk
        · exact hv k hk
      · intro x
        rw [heq]
        simp only [keysT]
        exact ihk x

theorem buildC_some (l : List (List Nat)) :
    ∀ t : CTree, (t ≠ none ∨ l ≠ []) →
      ∃ root, l.foldl (fun acc k => Insert k acc) t = some root := by
  induction l with
  | nil =>
    intro t ht
    rcases ht with ht | ht
    · cases t with
      | none => exact absurd rfl ht
      | some root => exact ⟨root, rfl⟩
    · exact absurd rfl ht
  | cons k l ih =>
    intro t _
    rw [List.foldl_cons]
    obtain ⟨r, hr⟩ := Insert_isSome k t
    exact ih (Insert k t) (Or.inl (by rw [hr]; exact Option.some_ne_none r))

theorem buildC_invariant (l : List (List Nat)) :
    ∀ t : CTree, (∀ k ∈ l, ValidKey k) →
    (∀ root, t = some root → Good root ∧ ∀ k ∈ keysC root, ValidKey k) →
    ∀ root', l.foldl (fun acc k => Insert k acc) t = some root' →
      Good root' ∧ (∀ k ∈ keysC root', ValidKey k) ∧
      (∀ x ∈ keysC root', x ∈ l ∨ x ∈ keysT t) ∧
      (∀ x ∈ l, x ∈ keysC root') ∧
      (∀ x ∈ keysT t, x ∈ keysC root') := by
  induction l with
  | nil =>
    intro t _ hgt root' hr
    simp only [List.foldl_nil] at hr
    obtain ⟨hg, hv⟩ := hgt root' hr
    refine ⟨hg, hv, ?_, ?_, ?_⟩
    · intro x hx
      right
      rw [hr]
      exact hx
    · intro x hx
      simp at hx
    · intro x hx
      rw [hr] at hx
      exact hx
  | cons k l ih =>
    intro t hvl hgt root' hr
    rw [List.foldl_cons] at hr
    obtain ⟨r1, hr1⟩ := Insert_isSome k t
    obtain ⟨hg1, hv1, hk1⟩ := Insert_good k t (hvl k (by simp)) hgt r1 hr1
    have hgt1 : ∀ root, Insert k t = some root →
        Good root ∧ ∀ j ∈ keysC root, ValidKey j := by
      intro root h
      rw [hr1] at h
      obtain rfl := Option.some.inj h
      exact ⟨hg1, hv1⟩
    obtain ⟨hg', hv', hsub, hsup, hold⟩ :=
      ih (Insert k t) (fun j hj => hvl j (by simp [hj])) hgt1 root' hr
    refine ⟨hg', hv', ?_, ?_, ?_⟩
    · intro x hx
      rcases hsub x hx with hx | hx
      · exact Or.inl (by simp [hx])
      · rw [hr1] at hx
        rcases (hk1 x).mp hx with rfl | hx'
        · exact Or.inl (by simp)
        · exact Or.inr hx'
    · intro x hx
      rcases List.mem_cons.mp hx with rfl | hx
      · refine hold x ?_
        rw [hr1]
        exact (hk1 x).mpr (Or.inl rfl)
      · exact hsup x hx
    · intro x hx
      refine hold x ?_
      rw [hr1]
      exact (hk1 x).mpr (Or.inr hx)

/-- C10: inserting a key identical to one already stored in a crit-bit tree
built by `Insert` calls returns without modifying the tree
(`find_crit_bit` against the reached leaf yields no differing bit, and the
function returns early), and `Insert` is idempotent per key on every tree —
the duplicate-key question is resolved as "ignored" for this variant.  The
documented key invariant of the source (keys are null-free byte strings) is
assumed. -/
theorem C10_duplicate_ignored (l : List (List Nat)) (k : List Nat)
    (hval : ∀ s ∈ l, ValidKey s) (hk : k ∈ l) :
    Insert k (buildC l) = buildC l ∧
    (∀ t : CTree, Insert k (Insert k t) = Insert k t) := by
  refine ⟨?_, fun t => Insert_idem k t⟩
  have hne : l ≠ [] := by
    intro h
    rw [h] at hk
    simp at hk
  obtain ⟨root, hroot⟩ := buildC_some l none (Or.inr hne)
  have hb : buildC l = some root := hroot
  obtain ⟨hg, hv, _, hsup, _⟩ := buildC_invariant l none hval
    (by intro r h; simp at h) root hroot
  have hkmem : k ∈ keysC root := hsup k hk
  have hleaf : leafOf k root = k := leafOf_eq_of_mem k root hg hkmem
  rw [hb]
  simp only [Insert, buildPath_snd_leafOf, hleaf, find_crit_bit_self]

/-- C10 witness at the one-key tree over key `[1]`. -/
theorem C10_witness :
    Insert [1] (buildC [[(1 : Nat)]]) = buildC [[(1 : Nat)]] ∧
    (∀ t : CTree, Insert [1] (Insert [1] t) = Insert [1] t) :=
  C10_duplicate_ignored [[(1 : Nat)]] [1]
    (by
      intro s hs
      simp only [List.mem_singleton] at hs
      subst hs
      intro c hc
      simp only [List.mem_singleton] at hc
      subst hc
      exact ⟨by norm_num, one_ne_zero⟩)
    (by simp)

end CritBit
